import Mathlib

/-!
Verification of the Transit-Analysis core (`singapore_2009_validation.py`).

This file shallowly embeds the data model and the operations of the
repository's core: the NetworkX graphs built by `create_networkx_graph`,
the Derrible & Kennedy indicator computation
(`compute_derrible_kennedy_indicators`, including the line-change BFS
`count_min_transfers_bfs`), the disruption simulator
(`simulate_disruption_scenario` and the per-scenario body of `compute_fri`),
the repair pass of `build_network_topology`, and the time-bounded
reachability of `compute_reachability`.

Modelling conventions:
* station identifiers and line identifiers are natural numbers;
* Python floats are modelled as rationals (`ℚ`); the float constants of the
  source (regression coefficients, `np.pi`, `SINGAPORE_AREA`) are fixed
  rationals;
* `numpy` trigonometry (`haversine_distance` builds on `np.sin`, `np.cos`,
  `np.arcsin`) is an external numerical routine and is abstracted as a
  distance-function parameter `hav`;
* Python `set`s iterate in an unspecified order; where the source iterates
  over a set we iterate over the sorted list of a `Finset` (no claim in
  scope depends on the iteration order);
* fallible code is embedded in `Except`.
-/

namespace Transit

/-- Canonical undirected edge key, the embedding of `tuple(sorted([a, b]))`
used throughout the source for edge dictionaries. -/
def ekey (a b : ℕ) : ℕ × ℕ := if a ≤ b then (a, b) else (b, a)

/-- A NetworkX undirected graph as built by `create_networkx_graph`:
a node set, a set of canonical edge keys, and the node/edge attribute maps
the source stores (`lines`, `travel_time`, `is_transfer`, `is_terminal`).
Attributes of absent nodes/edges are irrelevant junk values. -/
structure Graph where
  nodes : Finset ℕ
  edges : Finset (ℕ × ℕ)
  nodeLines : ℕ → Finset ℕ
  edgeLines : ℕ × ℕ → Finset ℕ
  travelTime : ℕ × ℕ → ℚ
  isTransfer : ℕ → Bool
  isTerminal : ℕ → Bool

instance : Inhabited Graph :=
  ⟨⟨∅, ∅, fun _ => ∅, fun _ => ∅, fun _ => 0, fun _ => false, fun _ => false⟩⟩

/-- Neighbours of `v`: the embedding of `G.neighbors(v)` (as an unordered
collection; iteration uses `nbrList`). -/
def nbrFinset (G : Graph) (v : ℕ) : Finset ℕ :=
  G.nodes.filter (fun t => ekey v t ∈ G.edges)

/-- Neighbour iteration order (deterministic stand-in for NetworkX's
adjacency order; no claim in scope depends on the order). -/
def nbrList (G : Graph) (v : ℕ) : List ℕ :=
  (nbrFinset G v).sort (· ≤ ·)

/-- Degree of a node: the number of incident edges, as `G.degree()` counts. -/
def degreeOf (G : Graph) (v : ℕ) : ℕ :=
  (G.edges.filter (fun e => e.1 = v ∨ e.2 = v)).card

/-- Embedding of `G.remove_nodes_from(failed)` (NetworkX removes the nodes
and every incident edge). -/
def removeNodes (G : Graph) (failed : Finset ℕ) : Graph :=
  { G with
    nodes := G.nodes \ failed
    edges := G.edges.filter (fun e => e.1 ∉ failed ∧ e.2 ∉ failed) }

/-- Embedding of `G.subgraph(keep).copy()`: the subgraph induced on `keep`. -/
def inducedSubgraph (G : Graph) (keep : Finset ℕ) : Graph :=
  { G with
    nodes := G.nodes ∩ keep
    edges := G.edges.filter (fun e => e.1 ∈ G.nodes ∩ keep ∧ e.2 ∈ G.nodes ∩ keep) }

/-! ### Connected components

`nx.is_connected` / `nx.connected_components` are modelled by an iterated
neighbourhood closure: expanding a vertex set through adjacency
`G.nodes.card` times reaches a fixed point, which is the connected
component. -/

/-- One closure step: add all neighbours of the current set. -/
def expandStep (G : Graph) (S : Finset ℕ) : Finset ℕ :=
  S ∪ S.biUnion (nbrFinset G)

/-- Connected component of `v`: the adjacency closure of `{v}`. -/
def comp (G : Graph) (v : ℕ) : Finset ℕ :=
  (expandStep G)^[G.nodes.card] {v}

/-- Mutual-connectivity predicate used to model membership in the same
`nx.connected_components` class. -/
def sameComp (G : Graph) (u v : ℕ) : Prop := v ∈ comp G u

instance (G : Graph) (u v : ℕ) : Decidable (sameComp G u v) := by
  unfold sameComp; infer_instance

/-- Embedding of `nx.is_connected(G)` for nonempty graphs: every ordered
pair of nodes lies in one component. (NetworkX raises on the empty graph;
on the empty graph this predicate is vacuously true and the callers in
scope guard nonemptiness separately.) -/
def isConn (G : Graph) : Prop :=
  ∀ u ∈ G.nodes, ∀ v ∈ G.nodes, sameComp G u v

instance (G : Graph) : Decidable (isConn G) := by
  unfold isConn; infer_instance

/-- Adjacency relation of the graph (both endpoints are nodes and the
canonical key is an edge). -/
def Adj (G : Graph) (u v : ℕ) : Prop :=
  u ∈ G.nodes ∧ v ∈ G.nodes ∧ ekey u v ∈ G.edges

/-- Reachability along adjacency: the mathematical meaning of "in the same
connected component". -/
def Reach (G : Graph) : ℕ → ℕ → Prop := Relation.ReflTransGen (Adj G)

/-- Embedding of `list(nx.connected_components(G))`: each distinct
component once, in a deterministic order. -/
def componentsList (G : Graph) : List (Finset ℕ) :=
  ((G.nodes.sort (· ≤ ·)).map (comp G)).dedup

/-- Embedding of `max(components, key=len)` (Python `max` keeps the first
of several maxima; the fold below does the same). -/
def largestComp (G : Graph) : Finset ℕ :=
  (componentsList G).foldl (fun acc c => if acc.card < c.card then c else acc) ∅

/-- Embedding of the isolated-station count of `compute_fri`
(lines 839–844): stations in components smaller than the largest one,
`0` for a connected graph. -/
def isolatedCount (G : Graph) : ℕ :=
  if isConn G then 0
  else
    let sizes := (componentsList G).map Finset.card
    let largest := sizes.foldl max 0
    (sizes.filter (fun n => n < largest)).sum

/-! ### Topology snapshot and configuration constants -/

/-- The fields of the `topology` dictionary returned by
`build_network_topology` that the indicator calculator and the disruption
simulator read. `station_lines_keys` is the key set of the `station_lines`
dictionary (its length is the total station count used by coverage). -/
structure Topology where
  station_lines_keys : Finset ℕ
  station_lines : ℕ → Finset ℕ
  transfer_stations : Finset ℕ
  terminal_stations : Finset ℕ
  single_use_count : ℕ
  multiple_use_count : ℕ

/-- `SINGAPORE_AREA = 734.3` (km²). -/
def SINGAPORE_AREA : ℚ := 7343 / 10

/-- The IEEE-754 double value of `np.pi` as an exact rational. -/
def np_pi : ℚ := 884279719003555 / 281474976710656

/-! ### Line-change BFS (`count_min_transfers_bfs`, lines 572–612)

State = (station, currently boarded line); transfers increase by one when
the edge's line differs from the boarded line. The Python loop is a
FIFO-queue relaxation; it is embedded with an explicit fuel parameter that
is provably sufficient for the queue to drain. -/

/-- Functional update of the `visited` dictionary. -/
def updVis (vis : ℕ × ℕ → Option ℕ) (k : ℕ × ℕ) (c : ℕ) : ℕ × ℕ → Option ℕ :=
  fun k2 => if k2 = k then some c else vis k2

/-- The relaxation guard `state_key not in visited or visited[state_key] >
new_transfers`. -/
def improves (vis : ℕ × ℕ → Option ℕ) (k : ℕ × ℕ) (c : ℕ) : Bool :=
  match vis k with
  | none => true
  | some v => c < v

/-- All transitions generated when the state `(s, l)` with `transfers = c`
is expanded: for each neighbour `t` and each line `l2` of the edge, the new
state `(t, l2)` with cost `c` plus one if the line changes. -/
def transitionsOf (G : Graph) (s l c : ℕ) : List ((ℕ × ℕ) × ℕ) :=
  (nbrList G s).flatMap (fun t =>
    ((G.edgeLines (ekey s t)).sort (· ≤ ·)).map
      (fun l2 => ((t, l2), c + if l2 = l then 0 else 1)))

/-- The inner double loop of the BFS: try each transition, and on
improvement update `visited` and append the new entry to the queue. -/
def relaxAll : List ((ℕ × ℕ) × ℕ) → (ℕ × ℕ → Option ℕ) → List ((ℕ × ℕ) × ℕ) →
    (ℕ × ℕ → Option ℕ) × List ((ℕ × ℕ) × ℕ)
  | [], vis, q => (vis, q)
  | (k, c) :: rest, vis, q =>
    if improves vis k c then relaxAll rest (updVis vis k c) (q ++ [(k, c)])
    else relaxAll rest vis q

/-- Update of `min_transfers_to_target` (which starts at `inf`, modelled by
`none`). -/
def minOpt (best : Option ℕ) (c : ℕ) : Option ℕ :=
  match best with
  | none => some c
  | some v => some (min v c)

/-- The main BFS loop: pop the queue head; a target state only records its
transfer count; any other state is expanded through `relaxAll`. -/
def bfsLoop (G : Graph) (target : ℕ) :
    ℕ → List ((ℕ × ℕ) × ℕ) → (ℕ × ℕ → Option ℕ) → Option ℕ → Option ℕ
  | 0, _, _, best => best
  | _ + 1, [], _, best => best
  | fuel + 1, ((s, l), c) :: q, vis, best =>
    if s = target then bfsLoop G target fuel q vis (minOpt best c)
    else
      let p := relaxAll (transitionsOf G s l c) vis q
      bfsLoop G target fuel p.2 p.1 best

/-- All line identifiers a BFS from `source` can ever board. -/
def lineUniverse (G : Graph) (source : ℕ) : Finset ℕ :=
  G.nodeLines source ∪ G.edges.biUnion G.edgeLines

/-- The finite universe of BFS states. -/
def stateUniverse (G : Graph) (source : ℕ) : Finset (ℕ × ℕ) :=
  G.nodes ×ˢ lineUniverse G source

/-- A fuel budget provably large enough for the BFS queue to drain (every
visited value strictly decreases per re-assignment and stays below the
state count). -/
def bfsFuel (G : Graph) (source : ℕ) : ℕ :=
  let K := (stateUniverse G source).card
  (K + 2) * (K * (K + 1)) + K + 1

/-- Embedding of `count_min_transfers_bfs(G, source, target)`: seed one
state per line available at the source with zero transfers, run the queue,
and fall back to `num_lines` when the target was never reached. -/
def count_min_transfers_bfs (G : Graph) (num_lines source target : ℕ) : ℕ :=
  let seeds := (G.nodeLines source).sort (· ≤ ·)
  let vis0 := seeds.foldl (fun v l => updVis v (source, l) 0) (fun _ => none)
  let q0 := seeds.map (fun l => ((source, l), 0))
  match bfsLoop G target (bfsFuel G source) q0 vis0 none with
  | some b => b
  | none => num_lines

/-- Specification-side cost-annotated reachability in the
(station, line)-state space, following §4.3 of the spec: one seed per line
available at the source with zero changes, plus one change whenever the
edge's line differs from the boarded line. -/
inductive CostReach (G : Graph) (source : ℕ) : ℕ × ℕ → ℕ → Prop
  | seed (l : ℕ) : l ∈ G.nodeLines source → CostReach G source (source, l) 0
  | step (s l c t l2 : ℕ) : CostReach G source (s, l) c → t ∈ nbrFinset G s →
      l2 ∈ G.edgeLines (ekey s t) →
      CostReach G source (t, l2) (c + if l2 = l then 0 else 1)

/-- Cost-annotated reachability by walks that never continue out of the
target station (the BFS never expands a dequeued target state). Minima over
`CostReach` and `CostReachT` agree at the target. -/
inductive CostReachT (G : Graph) (source target : ℕ) : ℕ × ℕ → ℕ → Prop
  | seed (l : ℕ) : l ∈ G.nodeLines source → CostReachT G source target (source, l) 0
  | step (s l c t l2 : ℕ) : CostReachT G source target (s, l) c → s ≠ target →
      t ∈ nbrFinset G s → l2 ∈ G.edgeLines (ekey s t) →
      CostReachT G source target (t, l2) (c + if l2 = l then 0 else 1)

/-- The set of line-change counts of state walks from `source` reaching the
target station. -/
def ReachCosts (G : Graph) (source target : ℕ) : Set ℕ :=
  {c | ∃ l, CostReach G source (target, l) c}

/-- The same set restricted to walks that do not pass through the target. -/
def ReachCostsT (G : Graph) (source target : ℕ) : Set ℕ :=
  {c | ∃ l, CostReachT G source target (target, l) c}

/-! ### Indicator calculator (`compute_derrible_kennedy_indicators`) -/

/-- Transfer/terminal nodes of the graph, in node order (line 616). -/
def relevantNodes (G : Graph) : List ℕ :=
  (G.nodes.sort (· ≤ ·)).filter (fun n => G.isTransfer n || G.isTerminal n)

/-- Ordered pairs `(i, j)` with `i` before `j`, as the nested loops
`for i, source in enumerate(nodes): for target in nodes[i+1:]` produce. -/
def pairsOf : List ℕ → List (ℕ × ℕ)
  | [] => []
  | x :: xs => xs.map (fun y => (x, y)) ++ pairsOf xs

/-- Maximum line-change distance over all listed pairs. -/
def deltaOf (G : Graph) (num_lines : ℕ) (ns : List ℕ) : ℕ :=
  (pairsOf ns).foldl (fun m p => max m (count_min_transfers_bfs G num_lines p.1 p.2)) 0

/-- The δ computation of lines 614–686: on a connected graph, the maximum
over all pairs of relevant nodes; otherwise the same restricted to the
largest connected component; `0` when fewer than two relevant nodes. -/
def delta_calc (G : Graph) (num_lines : ℕ) : ℕ :=
  if isConn G then
    let rel := relevantNodes G
    if 1 < rel.length then deltaOf G num_lines rel else 0
  else
    let Gm := inducedSubgraph G (largestComp G)
    let rel := relevantNodes Gm
    if 1 < rel.length then deltaOf Gm num_lines rel else 0

/-- The record returned by `compute_derrible_kennedy_indicators`. -/
structure Indicators where
  sigma : ℚ
  tau : ℚ
  rho : ℚ
  v : ℕ
  v_t : ℕ
  v_e : ℕ
  e : ℕ
  e_s : ℕ
  e_m : ℕ
  delta : ℕ
  A : ℚ
  L : ℚ

/-- Embedding of `compute_derrible_kennedy_indicators` (lines 530–731).
NetworkX's `is_connected` raises on an empty graph, so the source function
is only defined for graphs with at least one node; this embedding is total
and callers carry the nonemptiness guard. -/
def compute_derrible_kennedy_indicators (G : Graph) (topology : Topology)
    (total_length : ℚ) (num_lines : ℕ) : Indicators :=
  let terminal_only := topology.terminal_stations \ topology.transfer_stations
  let v_t := topology.transfer_stations.card
  let v_e := terminal_only.card
  let e_s := topology.single_use_count
  let e_m := topology.multiple_use_count
  let n_s_total := topology.station_lines_keys.card
  let sigma : ℚ := ((n_s_total : ℚ) * np_pi * (1 / 2) ^ 2) / SINGAPORE_AREA
  let delta := delta_calc G num_lines
  let tau : ℚ := if 0 < delta then (num_lines : ℚ) / (delta : ℚ) else 1
  let v_c_t : ℤ :=
    Finset.sum (G.nodes.filter (fun n => G.isTransfer n))
      (fun n => ((topology.station_lines n).card : ℤ) - 1)
  let rho0 : ℚ := if 0 < v_t then ((v_c_t : ℚ) - (e_m : ℚ)) / (v_t : ℚ) else 0
  let rho := max 0 rho0
  { sigma := sigma, tau := tau, rho := rho,
    v := v_t + v_e, v_t := v_t, v_e := v_e,
    e := e_s + e_m, e_s := e_s, e_m := e_m,
    delta := delta, A := SINGAPORE_AREA, L := total_length }

/-- Embedding of `predict_boardings_per_capita` (lines 734–739). -/
def predict_boardings_per_capita (sigma tau rho : ℚ) : ℚ :=
  44.963 * sigma + 7.579 * tau + 92.316 * rho + 102.947

/-- Embedding of `compute_fri_baseline`'s boardings-per-capita value
(lines 742–769). -/
def compute_fri_baseline_bpc (G : Graph) (topology : Topology)
    (total_length : ℚ) (num_lines : ℕ) : ℚ :=
  let ind := compute_derrible_kennedy_indicators G topology total_length num_lines
  predict_boardings_per_capita ind.sigma ind.tau ind.rho

/-! ### Disruption simulator -/

/-- Embedding of `simulate_disruption_scenario` (lines 772–800): remove the
failed stations from a copy of the graph, subtract them from the
transfer/terminal sets of a copied topology, and re-sum the surviving
edges' great-circle lengths. `coords` gives each station's coordinates and
`hav` abstracts `haversine_distance`. -/
def simulate_disruption_scenario (G_original : Graph) (topology : Topology)
    (coords : ℕ → ℚ × ℚ) (hav : ℚ × ℚ → ℚ × ℚ → ℚ) (failed : Finset ℕ) :
    Graph × Topology × ℚ :=
  let G := removeNodes G_original failed
  let new_topology :=
    { topology with
      transfer_stations := topology.transfer_stations \ failed
      terminal_stations := topology.terminal_stations \ failed }
  let new_length := Finset.sum G.edges (fun e => hav (coords e.1) (coords e.2))
  (G, new_topology, new_length)

/-- Embedding of the reachable-pairs percentage of `compute_fri`
(lines 846–869): pairs inside connected components of the full graph with
the failed stations removed, divided by the hard-coded
`170 * 169 / 2` pair count, times 100. -/
def reachable_pct_calc (G_full : Graph) (failed : Finset ℕ) : ℚ :=
  let remaining := G_full.nodes \ failed
  let Gd := inducedSubgraph G_full remaining
  if 1 < Gd.nodes.card then
    let reachable_pairs : ℚ :=
      if isConn Gd then (Gd.nodes.card : ℚ) * ((Gd.nodes.card : ℚ) - 1) / 2
      else
        ((componentsList Gd).map
          (fun c => if 1 < c.card then (c.card : ℚ) * ((c.card : ℚ) - 1) / 2 else 0)).sum
    (reachable_pairs / (170 * 169 / 2)) * 100
  else 0

/-- One scenario record of `compute_fri` (the claims in scope use the
`failed_count`, `performance_ratio`, `isolated_stations` and
`reachable_pct` columns). -/
structure ScenarioRec where
  failed : Finset ℕ
  failed_count : ℕ
  performance_ratio : ℚ
  isolated_stations : ℕ
  reachable_pct : ℚ

/-- The per-trial body of `compute_fri` (lines 827–883, random branch;
the degree/betweenness branches share it except for the isolated count of
an emptied graph): simulate the disruption, recompute indicators and the
performance ratio on a nonempty surviving graph, else ratio `0` with every
station isolated. -/
def scenario_stats (G_baseline G_full : Graph) (topology : Topology)
    (coords : ℕ → ℚ × ℚ) (hav : ℚ × ℚ → ℚ × ℚ → ℚ) (num_lines : ℕ)
    (baseline_bpc : ℚ) (failed : Finset ℕ) : ScenarioRec :=
  let r := simulate_disruption_scenario G_baseline topology coords hav failed
  let G_disrupted := r.1
  let new_topology := r.2.1
  let new_length := r.2.2
  if 0 < G_disrupted.nodes.card then
    let ind := compute_derrible_kennedy_indicators G_disrupted new_topology new_length num_lines
    let bpc := predict_boardings_per_capita ind.sigma ind.tau ind.rho
    let performance_ratio := if 0 < baseline_bpc then bpc / baseline_bpc else 0
    { failed := failed, failed_count := failed.card,
      performance_ratio := performance_ratio,
      isolated_stations := isolatedCount G_disrupted,
      reachable_pct := reachable_pct_calc G_full failed }
  else
    { failed := failed, failed_count := failed.card,
      performance_ratio := 0,
      isolated_stations := G_baseline.nodes.card,
      reachable_pct := 0 }

/-- `int(len(all_stations) * prob)` of line 821. Python `int()` truncates
toward zero; for the nonnegative probabilities in scope this is the floor. -/
def num_fail (n : ℕ) (p : ℚ) : ℕ := (⌊(n : ℚ) * p⌋).toNat

/-- One random-failure trial of `compute_fri` (lines 818–893): skip the
trial when the failure count rounds to zero, otherwise record the scenario
for the drawn failed-station set. The uniform draw
`np.random.choice(all_stations, size=num_fail, replace=False)` is
abstracted by the `draw` argument; its contract (a subset of the baseline
stations of exactly the requested size) is a hypothesis of the theorems. -/
def random_trial (G_baseline G_full : Graph) (topology : Topology)
    (coords : ℕ → ℚ × ℚ) (hav : ℚ × ℚ → ℚ × ℚ → ℚ) (num_lines : ℕ)
    (baseline_bpc : ℚ) (p : ℚ) (draw : Finset ℕ) : Option ScenarioRec :=
  if num_fail G_baseline.nodes.card p = 0 then none
  else some (scenario_stats G_baseline G_full topology coords hav num_lines baseline_bpc draw)

/-- The `degrees.items()` list of `compute_fri` line 902: stations of the
baseline graph with their degrees, in node iteration order. -/
def degPairs (G_baseline : Graph) (order : List ℕ) : List (ℕ × ℕ) :=
  order.map (fun v => (v, degreeOf G_baseline v))

/-- The comparison of `sorted(degrees.items(), key=lambda x: x[1],
reverse=True)`: descending on the degree component. -/
def degSortRel : ℕ × ℕ → ℕ × ℕ → Prop := fun a b => b.2 ≤ a.2

instance : DecidableRel degSortRel :=
  fun a b => inferInstanceAs (Decidable (b.2 ≤ a.2))

instance : IsTotal (ℕ × ℕ) degSortRel := ⟨fun a b => le_total b.2 a.2⟩

instance : IsTrans (ℕ × ℕ) degSortRel := ⟨fun _ _ _ h1 h2 => le_trans h2 h1⟩

/-- The stable descending degree sort of line 903 (Python's `sorted` is
stable; so is insertion sort). -/
def degSorted (G_baseline : Graph) (order : List ℕ) : List (ℕ × ℕ) :=
  (degPairs G_baseline order).insertionSort degSortRel

/-- The degree-targeted failed-station selection of `compute_fri`
(lines 901–904): sort the stations of the *baseline* graph by descending
degree and keep the first `k`. `order` is the iteration order of the
graph's nodes. -/
def degree_targeted_failed (G_baseline : Graph) (order : List ℕ) (k : ℕ) : Finset ℕ :=
  (((degSorted G_baseline order).take k).map Prod.fst).toFinset

/-! ### Accessibility engine (`compute_reachability`, lines 1059–1073) -/

/-- One Bellman-style relaxation round for single-source shortest-path
distances over the `travel_time` edge weights. -/
def relaxRound (G : Graph) (d : ℕ → Option ℚ) : ℕ → Option ℚ :=
  fun v =>
    (nbrList G v).foldl
      (fun acc u =>
        match d u with
        | none => acc
        | some du =>
          match acc with
          | none => some (du + G.travelTime (ekey u v))
          | some a => some (min a (du + G.travelTime (ekey u v)))) (d v)

/-- Shortest travel-time distances from `source`: `G.nodes.card` rounds of
relaxation (enough for every shortest simple path), the semantics of
`nx.single_source_dijkstra_path_length` under nonnegative weights. -/
def sssp (G : Graph) (source : ℕ) : ℕ → Option ℚ :=
  (relaxRound G)^[G.nodes.card] (fun v => if v = source then some 0 else none)

/-- The cutoff test of the Dijkstra call: a station is kept when its
distance is defined and at most the threshold. -/
def withinCutoff (c : Option ℚ) (t : ℚ) : Bool :=
  match c with
  | none => false
  | some d => d ≤ t

/-- Embedding of `compute_reachability(G, t)[source]`: the stations whose
shortest travel time from `source` is at most the threshold. -/
def compute_reachability (G : Graph) (t : ℚ) (source : ℕ) : Finset ℕ :=
  G.nodes.filter (fun v => withinCutoff (sssp G source v) t = true)

/-! ### Repair pass of `build_network_topology` (lines 332–375) -/

/-- The `dk_edges` dictionary: canonical special-vertex pairs with their
line sets and optional travel time. -/
structure DKEdges where
  keys : Finset (ℕ × ℕ)
  lines : ℕ × ℕ → Finset ℕ
  travelTime : ℕ × ℕ → Option ℚ

/-- Degree of a special vertex in the D&K edge dictionary (the size of its
`vertex_edges` adjacency entry). -/
def dkDegree (d : DKEdges) (v : ℕ) : ℕ :=
  (d.keys.filter (fun e => e.1 = v ∨ e.2 = v)).card

/-- The `connected_vertices` filter of lines 356–361: special vertices on
line `l` that have at least one edge in the *pre-repair* adjacency `d0`
(the source builds `vertex_edges` once, before the repair loop). -/
def staleConnected (specials : List ℕ) (station_lines : ℕ → Finset ℕ)
    (d0 : DKEdges) (l : ℕ) : List ℕ :=
  (specials.filter (fun u => l ∈ station_lines u)).filter (fun u => 0 < dkDegree d0 u)

/-- The per-vertex line loop of lines 354–373: find the first line of the
isolated vertex with a pre-repair-connected peer; connect to the first such
peer and stop, unless that edge already exists (then keep looking). -/
def repair_lines_loop (v : ℕ) (d0 : DKEdges) (specials : List ℕ)
    (station_lines : ℕ → Finset ℕ) : List ℕ → DKEdges → DKEdges
  | [], d => d
  | l :: ls, d =>
    match staleConnected specials station_lines d0 l with
    | [] => repair_lines_loop v d0 specials station_lines ls d
    | u :: _ =>
      let e := ekey v u
      if e ∈ d.keys then repair_lines_loop v d0 specials station_lines ls d
      else
        { keys := insert e d.keys
          lines := fun e2 => if e2 = e then {l} else d.lines e2
          travelTime := fun e2 => if e2 = e then none else d.travelTime e2 }

/-- The repair pass (lines 332–375): compute the isolated special vertices
against the pre-repair adjacency, then connect each in turn. -/
def repair_pass (specials : List ℕ) (station_lines : ℕ → Finset ℕ)
    (d0 : DKEdges) : DKEdges :=
  let isolated := specials.filter (fun v => dkDegree d0 v = 0)
  isolated.foldl
    (fun d v =>
      repair_lines_loop v d0 specials station_lines ((station_lines v).sort (· ≤ ·)) d) d0

/-! ### Full-graph construction (`create_networkx_graph`, `for_fri=False`)

The travel-time estimation branch for an edge with a missing travel time
(line 516) reads the global name `AVERAGE_SUBWAY_SPEED_KMH`, which is
defined nowhere in the repository, so reaching that branch raises a
`NameError` at run time. The embedding returns the corresponding error. -/

/-- Edge records of the `all_edges` table: canonical key, line set,
optional averaged travel time. -/
def FullEdgeTable : Type := List ((ℕ × ℕ) × Finset ℕ × Option ℚ)

/-- The edge loop of lines 504–521. For an edge with a recorded travel
time, add it with that weight; for a missing travel time the source
computes the haversine distance (line 515) and then evaluates
`(dist / AVERAGE_SUBWAY_SPEED_KMH) * 60` (line 516), whose name lookup
fails. -/
def addFullEdges (coords : ℕ → ℚ × ℚ) (hav : ℚ × ℚ → ℚ × ℚ → ℚ) :
    FullEdgeTable → Graph → Except String Graph
  | [], G => Except.ok G
  | (e, ls, tt) :: rest, G =>
    match tt with
    | some t =>
      addFullEdges coords hav rest
        { G with
          edges := insert e G.edges
          edgeLines := fun e2 => if e2 = e then ls else G.edgeLines e2
          travelTime := fun e2 => if e2 = e then t else G.travelTime e2 }
    | none =>
      let _dist := hav (coords e.1) (coords e.2)
      Except.error "NameError: name AVERAGE_SUBWAY_SPEED_KMH is not defined"

/-- Embedding of `create_networkx_graph(..., for_fri=False)` (lines
492–523): all stations as nodes with their line sets, then the `all_edges`
table with travel times. -/
def create_networkx_graph_full (stations : Finset ℕ) (coords : ℕ → ℚ × ℚ)
    (station_lines : ℕ → Finset ℕ) (all_edges : FullEdgeTable)
    (hav : ℚ × ℚ → ℚ × ℚ → ℚ) : Except String Graph :=
  addFullEdges coords hav all_edges
    { nodes := stations
      edges := ∅
      nodeLines := station_lines
      edgeLines := fun _ => ∅
      travelTime := fun _ => 0
      isTransfer := fun _ => false
      isTerminal := fun _ => false }

/-! ### Heap model for the frame claim

`simulate_disruption_scenario` interacts with Python aliasing:
`topology.copy()` is a *shallow* dict copy, so the baseline's
transfer/terminal set objects are shared with the copy, and only because
`s - failed` allocates a fresh set (unlike the in-place `s -= failed`)
does the baseline survive unchanged. The heap model makes the set/graph
objects explicit store entries so this is a real statement. -/

/-- A store of graph objects and set objects; references are list indices. -/
structure Heap where
  graphs : List Graph
  setsStore : List (Finset ℕ)

def getGraph (h : Heap) (r : ℕ) : Graph := h.graphs.getD r default

def getSetRef (h : Heap) (r : ℕ) : Finset ℕ := h.setsStore.getD r ∅

/-- The `topology` dictionary as an object graph: the two mutable-set
values are references into the store; the remaining fields (the edge
table's key set and line map, and the two edge counts) are the values the
shallow copy shares. -/
structure TopoObj where
  transfer_ref : ℕ
  terminal_ref : ℕ
  edges_keys : Finset (ℕ × ℕ)
  edges_lines : ℕ × ℕ → Finset ℕ
  single_use_count : ℕ
  multiple_use_count : ℕ

/-- Stateful embedding of `simulate_disruption_scenario` (lines 772–800):
copy the graph object, mutate only the copy, shallow-copy the topology
dict and rebind its transfer/terminal keys to freshly allocated difference
sets. Returns the new store, the reference of the disrupted graph copy,
the new topology object and the recomputed length. -/
def simulate_disruption_scenario_heap (h : Heap) (gref : ℕ) (topology : TopoObj)
    (coords : ℕ → ℚ × ℚ) (hav : ℚ × ℚ → ℚ × ℚ → ℚ) (failed : Finset ℕ) :
    Heap × ℕ × TopoObj × ℚ :=
  let g := getGraph h gref
  let gref2 := h.graphs.length
  let h1 : Heap := { h with graphs := h.graphs ++ [g] }
  let h2 : Heap := { h1 with graphs := h1.graphs.set gref2 (removeNodes g failed) }
  let t1 := getSetRef h2 topology.transfer_ref \ failed
  let tref := h2.setsStore.length
  let h3 : Heap := { h2 with setsStore := h2.setsStore ++ [t1] }
  let t2 := getSetRef h3 topology.terminal_ref \ failed
  let eref := h3.setsStore.length
  let h4 : Heap := { h3 with setsStore := h3.setsStore ++ [t2] }
  let new_topology : TopoObj := { topology with transfer_ref := tref, terminal_ref := eref }
  let g2 := getGraph h4 gref2
  let new_length := Finset.sum g2.edges (fun e => hav (coords e.1) (coords e.2))
  (h4, gref2, new_topology, new_length)

/-! ### Concrete inputs used by witnesses and counterexamples -/

/-- A concrete two-station graph with one weighted edge (C9 witness). -/
def c9Graph : Graph :=
  { nodes := {0, 1}
    edges := {(0, 1)}
    nodeLines := fun _ => {0}
    edgeLines := fun _ => {0}
    travelTime := fun _ => 7
    isTransfer := fun _ => false
    isTerminal := fun _ => false }

/-- A concrete heap used by the C8 witness. -/
def c8Heap : Heap := { graphs := [c9Graph], setsStore := [{0}, {1}] }

/-- A concrete topology object used by the C8 witness. -/
def c8Topo : TopoObj :=
  { transfer_ref := 0, terminal_ref := 1, edges_keys := {(0, 1)},
    edges_lines := fun _ => ∅, single_use_count := 1, multiple_use_count := 0 }

/-- A concrete two-terminal, one-line, one-edge graph (C2/C10 witnesses). -/
def c2Graph : Graph :=
  { nodes := {0, 1}
    edges := {(0, 1)}
    nodeLines := fun _ => {0}
    edgeLines := fun _ => {0}
    travelTime := fun _ => 0
    isTransfer := fun _ => false
    isTerminal := fun v => v == 0 || v == 1 }

/-- The topology snapshot matching `c2Graph` (C2/C10 witnesses). -/
def c2Topo : Topology :=
  { station_lines_keys := {0, 1}
    station_lines := fun _ => {0}
    transfer_stations := ∅
    terminal_stations := {0, 1}
    single_use_count := 1
    multiple_use_count := 0 }

/-! ### BFS invariants (proof machinery for C6) -/

/-- Keys currently present in the `visited` dictionary. -/
def visDomain (G : Graph) (source : ℕ) (vis : ℕ × ℕ → Option ℕ) : Finset (ℕ × ℕ) :=
  (stateUniverse G source).filter (fun k => (vis k).isSome)

/-- Contribution of one state to the BFS measure: its visited value, or
the cap for unvisited states. -/
def visCap (cap : ℕ) (c : Option ℕ) : ℕ :=
  match c with
  | none => cap + 1
  | some v => v

/-- Sum of all visited transfer counts, with unvisited states charged the
maximal value; strictly decreases at every relaxation update. -/
def visMeasure (G : Graph) (source : ℕ) (vis : ℕ × ℕ → Option ℕ) : ℕ :=
  Finset.sum (stateUniverse G source)
    (fun k => visCap (stateUniverse G source).card (vis k))

/-- Termination measure of the BFS loop. -/
def bfsMeasure (G : Graph) (source : ℕ) (vis : ℕ × ℕ → Option ℕ)
    (q : List ((ℕ × ℕ) × ℕ)) : ℕ :=
  ((stateUniverse G source).card + 2) * visMeasure G source vis + q.length

/-- A visited state is *relaxed* at value `v`: either it is the target
station (then the recorded best is at most `v`), or every outgoing
transition has already been recorded with at most `v` plus the transition
cost. -/
def relaxedAt (G : Graph) (target : ℕ) (vis : ℕ × ℕ → Option ℕ)
    (best : Option ℕ) (k : ℕ × ℕ) (v : ℕ) : Prop :=
  if k.1 = target then ∃ b, best = some b ∧ b ≤ v
  else ∀ t ∈ nbrFinset G k.1, ∀ l2 ∈ G.edgeLines (ekey k.1 t),
    ∃ v2, vis (t, l2) = some v2 ∧ v2 ≤ v + (if l2 = k.2 then 0 else 1)

/-- The BFS loop invariant, with the stability obligation restricted to
the keys satisfying `P` (during the expansion of a popped state, its own
key is temporarily exempt). -/
structure BfsInvP (G : Graph) (source target : ℕ) (P : ℕ × ℕ → Prop)
    (q : List ((ℕ × ℕ) × ℕ)) (vis : ℕ × ℕ → Option ℕ) (best : Option ℕ) : Prop where
  qSound : ∀ e ∈ q, CostReachT G source target e.1 e.2
  qDom : ∀ e ∈ q, e.1 ∈ stateUniverse G source
  qBound : ∀ e ∈ q, e.2 ≤ (visDomain G source vis).card
  visDom : ∀ k : ℕ × ℕ, (vis k).isSome = true → k ∈ stateUniverse G source
  visSound : ∀ k v, vis k = some v → CostReachT G source target k v
  visBound : ∀ k v, vis k = some v → v ≤ (visDomain G source vis).card
  seedsVis : ∀ l ∈ G.nodeLines source, vis (source, l) = some 0
  stab : ∀ k v, vis k = some v → P k →
    (∃ e ∈ q, e.1 = k ∧ e.2 = v) ∨ relaxedAt G target vis best k v
  bestSound : ∀ b, best = some b → b ∈ ReachCostsT G source target

/-- The full BFS loop invariant. -/
def BfsInv (G : Graph) (source target : ℕ) (q : List ((ℕ × ℕ) × ℕ))
    (vis : ℕ × ℕ → Option ℕ) (best : Option ℕ) : Prop :=
  BfsInvP G source target (fun _ => True) q vis best

/-- A two-station graph with no edges: the target is unreachable from the
source (C6 witness). -/
def c6G : Graph :=
  { nodes := {0, 1}
    edges := ∅
    nodeLines := fun _ => {0}
    edgeLines := fun _ => ∅
    travelTime := fun _ => 0
    isTransfer := fun _ => false
    isTerminal := fun _ => false }

/-- Specification-side count for C3: ordered pairs of distinct stations of
`G` lying in the same connected component (the claim's "station pairs
within the same connected component", counted ordered; the unordered pair
count is half of it). -/
def sameCompPairs (G : Graph) : ℕ :=
  ((G.nodes ×ˢ G.nodes).filter (fun p => p.1 ≠ p.2 ∧ sameComp G p.1 p.2)).card

/-- A connected four-station full graph (path `0 – 1 – 2 – 3`); C3
counterexample. -/
def c3G : Graph :=
  { nodes := {0, 1, 2, 3}
    edges := {(0, 1), (1, 2), (2, 3)}
    nodeLines := fun _ => {0}
    edgeLines := fun _ => {0}
    travelTime := fun _ => 0
    isTransfer := fun _ => false
    isTerminal := fun _ => false }

/-- The hypothesis of C7 for a vertex `v`: some line of `v` carries a
special vertex that already has a D&K edge before the repair pass. -/
def hasConnectedPeer (specials : List ℕ) (station_lines : ℕ → Finset ℕ)
    (d0 : DKEdges) (v : ℕ) : Prop :=
  ∃ l ∈ station_lines v, ∃ u, u ∈ specials ∧ l ∈ station_lines u ∧ 0 < dkDegree d0 u

/-- The pre-repair D&K edge dictionary of the C7 witness: vertices 1 and 2
joined by an edge on line 5, vertex 0 isolated. -/
def c7D0 : DKEdges :=
  { keys := {(1, 2)}
    lines := fun _ => {5}
    travelTime := fun _ => none }

/-- The D&K special-vertex baseline graph of a three-station line
`0 – 1 – 2` (station 1 is not special, so only the terminals 0 and 2 with
the collapsed edge appear); C5 counterexample. -/
def c5Gfri : Graph :=
  { nodes := {0, 2}
    edges := {(0, 2)}
    nodeLines := fun _ => {0}
    edgeLines := fun _ => {0}
    travelTime := fun _ => 0
    isTransfer := fun _ => false
    isTerminal := fun v => v == 0 || v == 2 }

/-- The full stop-level graph of the same three-station line; C5
counterexample. -/
def c5Gfull : Graph :=
  { nodes := {0, 1, 2}
    edges := {(0, 1), (1, 2)}
    nodeLines := fun _ => {0}
    edgeLines := fun _ => {0}
    travelTime := fun _ => 0
    isTransfer := fun _ => false
    isTerminal := fun _ => false }

end Transit

namespace Transit

/-! ## Theorems -/

theorem ekey_comm (a b : ℕ) : ekey a b = ekey b a := by
  unfold ekey
  rcases Nat.lt_or_ge a b with h | h
  · rw [if_pos (Nat.le_of_lt h), if_neg (by omega)]
  · rcases Nat.lt_or_ge b a with h2 | h2
    · rw [if_neg (by omega), if_pos (Nat.le_of_lt h2)]
    · have : a = b := Nat.le_antisymm h2 h
      simp [this]

theorem Adj.symm {G : Graph} {u v : ℕ} (h : Adj G u v) : Adj G v u :=
  ⟨h.2.1, h.1, by rw [ekey_comm]; exact h.2.2⟩

theorem mem_nbrFinset {G : Graph} {u v : ℕ} :
    v ∈ nbrFinset G u ↔ v ∈ G.nodes ∧ ekey u v ∈ G.edges := by
  unfold nbrFinset; simp

theorem expandStep_subset (G : Graph) (S : Finset ℕ) : S ⊆ expandStep G S :=
  Finset.subset_union_left

theorem expandStep_mono (G : Graph) {S T : Finset ℕ} (h : S ⊆ T) :
    expandStep G S ⊆ expandStep G T := by
  unfold expandStep
  exact Finset.union_subset_union h (Finset.biUnion_subset_biUnion_of_subset_left _ h)

theorem iterate_expand_succ (G : Graph) (S : Finset ℕ) (n : ℕ) :
    (expandStep G)^[n + 1] S = expandStep G ((expandStep G)^[n] S) :=
  Function.iterate_succ_apply' _ _ _

theorem iterate_expand_le (G : Graph) (S : Finset ℕ) (n : ℕ) :
    (expandStep G)^[n] S ⊆ (expandStep G)^[n + 1] S := by
  rw [iterate_expand_succ]
  exact expandStep_subset G _

theorem iterate_expand_chain (G : Graph) (S : Finset ℕ) {m n : ℕ} (h : m ≤ n) :
    (expandStep G)^[m] S ⊆ (expandStep G)^[n] S := by
  induction n with
  | zero => simp_all
  | succ k ih =>
    rcases Nat.lt_or_ge m (k + 1) with h2 | h2
    · exact (ih (by omega)).trans (iterate_expand_le G S k)
    · have : m = k + 1 := by omega
      subst this; exact fun x hx => hx

theorem iterate_expand_subset_nodes (G : Graph) {v : ℕ} (hv : v ∈ G.nodes) (n : ℕ) :
    (expandStep G)^[n] {v} ⊆ G.nodes := by
  induction n with
  | zero => simpa using hv
  | succ k ih =>
    rw [iterate_expand_succ]
    unfold expandStep
    apply Finset.union_subset ih
    intro x hx
    rcases Finset.mem_biUnion.1 hx with ⟨w, _, hw⟩
    exact (mem_nbrFinset.1 hw).1

theorem iterate_expand_growth (G : Graph) (v : ℕ) (n : ℕ)
    (h : ∀ k < n, (expandStep G)^[k] {v} ≠ (expandStep G)^[k + 1] {v}) :
    n + 1 ≤ ((expandStep G)^[n] {v}).card := by
  induction n with
  | zero => simp
  | succ k ih =>
    have hlt : (expandStep G)^[k] {v} ⊂ (expandStep G)^[k + 1] {v} :=
      Finset.ssubset_iff_subset_ne.2 ⟨iterate_expand_le G _ k, h k (by omega)⟩
    have := Finset.card_lt_card hlt
    have := ih (fun j hj => h j (by omega))
    omega

/-- The closure stabilises after `G.nodes.card` iterations: `comp G v` is a
fixed point of the expansion step. -/
theorem expandStep_comp (G : Graph) {v : ℕ} (hv : v ∈ G.nodes) :
    expandStep G (comp G v) = comp G v := by
  set N := G.nodes.card with hN
  have hstall : ∃ k < N, (expandStep G)^[k] {v} = (expandStep G)^[k + 1] {v} := by
    by_contra hcon
    push_neg at hcon
    have hg := iterate_expand_growth G v N hcon
    have hle : ((expandStep G)^[N] {v}).card ≤ N :=
      hN ▸ Finset.card_le_card (iterate_expand_subset_nodes G hv N)
    omega
  rcases hstall with ⟨k, hk, hfix⟩
  have hall : ∀ m, k ≤ m → (expandStep G)^[m] {v} = (expandStep G)^[k] {v} := by
    intro m hm
    induction m with
    | zero =>
      have : k = 0 := by omega
      simp [this]
    | succ j ih =>
      rcases Nat.lt_or_ge k (j + 1) with h2 | h2
      · have hj := ih (by omega)
        rw [iterate_expand_succ, hj, ← iterate_expand_succ, ← hfix]
      · have : k = j + 1 := by omega
        simp [this]
  have h1 : comp G v = (expandStep G)^[k] {v} := hall N (by omega)
  have h2 : expandStep G (comp G v) = (expandStep G)^[N + 1] {v} := by
    rw [show comp G v = (expandStep G)^[N] {v} from rfl, ← iterate_expand_succ]
  rw [h2, hall (N + 1) (by omega), h1]

/-- Soundness direction of the closure: every member of `comp G v` is
reachable from `v`. -/
theorem reach_of_mem_comp (G : Graph) {v u : ℕ} (hv : v ∈ G.nodes)
    (hu : u ∈ comp G v) : Reach G v u := by
  suffices h : ∀ n, ∀ w ∈ (expandStep G)^[n] {v}, Reach G v w from
    h G.nodes.card u hu
  intro n
  induction n with
  | zero =>
    intro w hw
    simp only [Function.iterate_zero, id, Finset.mem_singleton] at hw
    subst hw; exact Relation.ReflTransGen.refl
  | succ k ih =>
    intro w hw
    rw [iterate_expand_succ] at hw
    rcases Finset.mem_union.1 hw with hw | hw
    · exact ih w hw
    · rcases Finset.mem_biUnion.1 hw with ⟨x, hx, hxw⟩
      have hxn : x ∈ G.nodes := iterate_expand_subset_nodes G hv k hx
      rcases mem_nbrFinset.1 hxw with ⟨hwn, hedge⟩
      exact Relation.ReflTransGen.tail (ih x hx) ⟨hxn, hwn, hedge⟩

/-- Completeness direction of the closure: every vertex reachable from `v`
lies in `comp G v`. -/
theorem mem_comp_of_reach (G : Graph) {v u : ℕ} (hv : v ∈ G.nodes)
    (hr : Reach G v u) : u ∈ comp G v := by
  induction hr with
  | refl =>
    have h0 : v ∈ (expandStep G)^[0] {v} := by simp
    exact iterate_expand_chain G {v} (Nat.zero_le _) h0
  | tail _ hadj ih =>
    rw [← expandStep_comp G hv]
    apply Finset.mem_union_right
    apply Finset.mem_biUnion.2
    refine ⟨_, ih, mem_nbrFinset.2 ⟨hadj.2.1, hadj.2.2⟩⟩

theorem mem_comp_iff_reach (G : Graph) {v u : ℕ} (hv : v ∈ G.nodes) :
    u ∈ comp G v ↔ Reach G v u :=
  ⟨reach_of_mem_comp G hv, mem_comp_of_reach G hv⟩

theorem reach_symm (G : Graph) {u v : ℕ} (h : Reach G u v) : Reach G v u := by
  induction h with
  | refl => exact Relation.ReflTransGen.refl
  | tail _ hadj ih =>
    exact Relation.ReflTransGen.trans (Relation.ReflTransGen.single hadj.symm) ih

theorem mem_comp_self (G : Graph) {v : ℕ} (hv : v ∈ G.nodes) : v ∈ comp G v :=
  mem_comp_of_reach G hv Relation.ReflTransGen.refl

theorem comp_subset_nodes (G : Graph) {v : ℕ} (hv : v ∈ G.nodes) :
    comp G v ⊆ G.nodes :=
  iterate_expand_subset_nodes G hv _

theorem reach_target_mem (G : Graph) {u v : ℕ} (hr : Reach G u v) :
    u = v ∨ v ∈ G.nodes := by
  induction hr with
  | refl => exact Or.inl rfl
  | tail _ hadj _ => exact Or.inr hadj.2.1

/-! ### Claim C1 -/

/-- Claim C1 (code bug): building the full graph from an edge table that
contains an edge with a missing (`None`) travel time does not assign the
haversine-based estimate — it fails, because line 516 reads the global
`AVERAGE_SUBWAY_SPEED_KMH`, which is defined nowhere in the repository, so
Python raises `NameError` in the estimation branch. Evaluated here on a
two-station network whose single edge has no recorded travel time. -/
theorem c1_missing_travel_time_fails :
    create_networkx_graph_full {0, 1} (fun _ => (0, 0)) (fun _ => {0})
      [((0, 1), ({0} : Finset ℕ), none)] (fun _ _ => 0) =
      Except.error "NameError: name AVERAGE_SUBWAY_SPEED_KMH is not defined" := rfl

/-! ### Claim C9 -/

theorem withinCutoff_mono {c : Option ℚ} {t1 t2 : ℚ} (h : t1 ≤ t2)
    (hc : withinCutoff c t1 = true) : withinCutoff c t2 = true := by
  cases c with
  | none => simp [withinCutoff] at hc
  | some d =>
    simp only [withinCutoff, decide_eq_true_eq] at hc ⊢
    exact le_trans hc h

/-- Claim C9: with nonnegative travel-time weights, the reachable-station
set computed by `compute_reachability` for a station at threshold `t1` is
contained in the one at any threshold `t2 ≥ t1`, so the reachable-station
count is non-decreasing in the time threshold. -/
theorem c9_reachability_monotone (G : Graph) (s : ℕ) {t1 t2 : ℚ}
    (_hw : ∀ e ∈ G.edges, 0 ≤ G.travelTime e) (ht : t1 ≤ t2) :
    compute_reachability G t1 s ⊆ compute_reachability G t2 s ∧
      (compute_reachability G t1 s).card ≤ (compute_reachability G t2 s).card := by
  have hsub : compute_reachability G t1 s ⊆ compute_reachability G t2 s := by
    intro v hv
    rcases Finset.mem_filter.1 hv with ⟨hn, hc⟩
    exact Finset.mem_filter.2 ⟨hn, withinCutoff_mono ht hc⟩
  exact ⟨hsub, Finset.card_le_card hsub⟩

/-- Witness for C9: the theorem's hypotheses hold and its conclusion
evaluates on a concrete graph and thresholds. -/
theorem c9_reachability_monotone_witness :
    (∀ e ∈ c9Graph.edges, 0 ≤ c9Graph.travelTime e) ∧ (3 : ℚ) ≤ 10 ∧
      (compute_reachability c9Graph 3 0 ⊆ compute_reachability c9Graph 10 0 ∧
        (compute_reachability c9Graph 3 0).card ≤ (compute_reachability c9Graph 10 0).card) :=
  ⟨by decide, by norm_num,
    c9_reachability_monotone c9Graph 0 (by decide) (by norm_num)⟩

/-! ### Claim C8 -/

theorem getD_append_lt {α : Type} (l l2 : List α) (d : α) (n : ℕ)
    (h : n < l.length) : (l ++ l2).getD n d = l.getD n d := by
  rw [List.getD_eq_getElem?_getD, List.getD_eq_getElem?_getD,
    List.getElem?_append, if_pos h]

theorem getD_set_ne {α : Type} (l : List α) (a : α) (d : α) {i j : ℕ}
    (h : i ≠ j) : (l.set i a).getD j d = l.getD j d := by
  rw [List.getD_eq_getElem?_getD, List.getD_eq_getElem?_getD,
    List.getElem?_set_ne h]

/-- Claim C8: the stateful disruption simulation leaves the baseline
objects untouched. Given valid references for the baseline graph and the
baseline topology's transfer/terminal sets, after
`simulate_disruption_scenario` the baseline graph object's node and edge
sets, the baseline transfer and terminal set objects, and the topology's
shared edge table and edge counts are all unchanged, and the scenario's
graph reference is distinct from the baseline's (the simulator operates
only on copies). -/
theorem c8_simulate_frame (h : Heap) (gref : ℕ) (topology : TopoObj)
    (coords : ℕ → ℚ × ℚ) (hav : ℚ × ℚ → ℚ × ℚ → ℚ) (failed : Finset ℕ)
    (hg : gref < h.graphs.length)
    (ht : topology.transfer_ref < h.setsStore.length)
    (he : topology.terminal_ref < h.setsStore.length) :
    (getGraph (simulate_disruption_scenario_heap h gref topology coords hav failed).1 gref).nodes
        = (getGraph h gref).nodes ∧
    (getGraph (simulate_disruption_scenario_heap h gref topology coords hav failed).1 gref).edges
        = (getGraph h gref).edges ∧
    getSetRef (simulate_disruption_scenario_heap h gref topology coords hav failed).1
        topology.transfer_ref = getSetRef h topology.transfer_ref ∧
    getSetRef (simulate_disruption_scenario_heap h gref topology coords hav failed).1
        topology.terminal_ref = getSetRef h topology.terminal_ref ∧
    (simulate_disruption_scenario_heap h gref topology coords hav failed).2.2.1.edges_keys
        = topology.edges_keys ∧
    (simulate_disruption_scenario_heap h gref topology coords hav failed).2.2.1.single_use_count
        = topology.single_use_count ∧
    (simulate_disruption_scenario_heap h gref topology coords hav failed).2.2.1.multiple_use_count
        = topology.multiple_use_count ∧
    (simulate_disruption_scenario_heap h gref topology coords hav failed).2.1 ≠ gref := by
  unfold simulate_disruption_scenario_heap getGraph getSetRef
  simp only
  have hgraph :
      ((h.graphs ++ [h.graphs.getD gref default]).set h.graphs.length
          (removeNodes (h.graphs.getD gref default) failed)).getD gref default
        = h.graphs.getD gref default := by
    rw [getD_set_ne _ _ _ (by omega), getD_append_lt _ _ _ _ hg]
  have hsets : ∀ s1 s2 : Finset ℕ, ∀ r < h.setsStore.length,
      ((h.setsStore ++ [s1]) ++ [s2]).getD r ∅ = h.setsStore.getD r ∅ := by
    intro s1 s2 r hr
    rw [getD_append_lt _ _ _ _ (by simp; omega), getD_append_lt _ _ _ _ hr]
  refine ⟨by rw [hgraph], by rw [hgraph], ?_, ?_, trivial, trivial, trivial, by omega⟩
  · exact hsets _ _ _ ht
  · exact hsets _ _ _ he

/-- Witness for C8: hypotheses and conclusion at a concrete heap, topology
and failed set. -/
theorem c8_simulate_frame_witness :
    0 < c8Heap.graphs.length ∧ c8Topo.transfer_ref < c8Heap.setsStore.length ∧
      c8Topo.terminal_ref < c8Heap.setsStore.length ∧
      ((getGraph (simulate_disruption_scenario_heap c8Heap 0 c8Topo (fun _ => (0, 0))
          (fun _ _ => 0) {0}).1 0).nodes = (getGraph c8Heap 0).nodes ∧
        (getGraph (simulate_disruption_scenario_heap c8Heap 0 c8Topo (fun _ => (0, 0))
          (fun _ _ => 0) {0}).1 0).edges = (getGraph c8Heap 0).edges ∧
        getSetRef (simulate_disruption_scenario_heap c8Heap 0 c8Topo (fun _ => (0, 0))
          (fun _ _ => 0) {0}).1 c8Topo.transfer_ref = getSetRef c8Heap c8Topo.transfer_ref ∧
        getSetRef (simulate_disruption_scenario_heap c8Heap 0 c8Topo (fun _ => (0, 0))
          (fun _ _ => 0) {0}).1 c8Topo.terminal_ref = getSetRef c8Heap c8Topo.terminal_ref ∧
        (simulate_disruption_scenario_heap c8Heap 0 c8Topo (fun _ => (0, 0))
          (fun _ _ => 0) {0}).2.2.1.edges_keys = c8Topo.edges_keys ∧
        (simulate_disruption_scenario_heap c8Heap 0 c8Topo (fun _ => (0, 0))
          (fun _ _ => 0) {0}).2.2.1.single_use_count = c8Topo.single_use_count ∧
        (simulate_disruption_scenario_heap c8Heap 0 c8Topo (fun _ => (0, 0))
          (fun _ _ => 0) {0}).2.2.1.multiple_use_count = c8Topo.multiple_use_count ∧
        (simulate_disruption_scenario_heap c8Heap 0 c8Topo (fun _ => (0, 0))
          (fun _ _ => 0) {0}).2.1 ≠ 0) :=
  ⟨by decide, by decide, by decide,
    c8_simulate_frame c8Heap 0 c8Topo (fun _ => (0, 0)) (fun _ _ => 0) {0}
      (by decide) (by decide) (by decide)⟩

/-! ### Claims C2 and C10 -/

theorem removeNodes_empty (G : Graph) : removeNodes G ∅ = G := by
  cases G
  simp [removeNodes]

theorem simulate_empty_graph (G : Graph) (topology : Topology)
    (coords : ℕ → ℚ × ℚ) (hav : ℚ × ℚ → ℚ × ℚ → ℚ) :
    (simulate_disruption_scenario G topology coords hav ∅).1 = G := by
  unfold simulate_disruption_scenario
  simp only
  exact removeNodes_empty G

theorem simulate_empty_topology (G : Graph) (topology : Topology)
    (coords : ℕ → ℚ × ℚ) (hav : ℚ × ℚ → ℚ × ℚ → ℚ) :
    (simulate_disruption_scenario G topology coords hav ∅).2.1 = topology := by
  unfold simulate_disruption_scenario
  simp only
  cases topology
  simp

/-- The three indicator terms entering the performance proxy do not depend
on the `total_length` argument (it is only copied into the output). -/
theorem indicators_length_irrelevant (G : Graph) (topology : Topology)
    (L1 L2 : ℚ) (num_lines : ℕ) :
    (compute_derrible_kennedy_indicators G topology L1 num_lines).sigma
        = (compute_derrible_kennedy_indicators G topology L2 num_lines).sigma ∧
    (compute_derrible_kennedy_indicators G topology L1 num_lines).tau
        = (compute_derrible_kennedy_indicators G topology L2 num_lines).tau ∧
    (compute_derrible_kennedy_indicators G topology L1 num_lines).rho
        = (compute_derrible_kennedy_indicators G topology L2 num_lines).rho :=
  ⟨rfl, rfl, rfl⟩

/-- Claim C2: with an empty failed-station set, the disruption pipeline
(simulation, indicator recomputation, boardings-per-capita prediction)
returns a performance ratio of exactly 1, given that the baseline proxy is
the one computed by `compute_fri_baseline` on the same inputs and is
positive. The baseline graph is nonempty (on an empty graph the baseline
indicator computation itself raises inside `nx.is_connected`, so no
baseline proxy exists). -/
theorem c2_baseline_ratio_one (G_baseline G_full : Graph) (topology : Topology)
    (coords : ℕ → ℚ × ℚ) (hav : ℚ × ℚ → ℚ × ℚ → ℚ) (num_lines : ℕ)
    (total_length baseline_bpc : ℚ)
    (hne : G_baseline.nodes.Nonempty)
    (hbase : baseline_bpc
        = compute_fri_baseline_bpc G_baseline topology total_length num_lines)
    (hpos : 0 < baseline_bpc) :
    (scenario_stats G_baseline G_full topology coords hav num_lines baseline_bpc
        ∅).performance_ratio = 1 := by
  simp only [scenario_stats]
  rw [simulate_empty_graph, simulate_empty_topology]
  rw [if_pos (Finset.card_pos.2 hne)]
  simp only
  rw [if_pos hpos]
  have hsig := (indicators_length_irrelevant G_baseline topology
    (simulate_disruption_scenario G_baseline topology coords hav ∅).2.2
    total_length num_lines)
  rw [show predict_boardings_per_capita
      (compute_derrible_kennedy_indicators G_baseline topology
        (simulate_disruption_scenario G_baseline topology coords hav ∅).2.2 num_lines).sigma
      (compute_derrible_kennedy_indicators G_baseline topology
        (simulate_disruption_scenario G_baseline topology coords hav ∅).2.2 num_lines).tau
      (compute_derrible_kennedy_indicators G_baseline topology
        (simulate_disruption_scenario G_baseline topology coords hav ∅).2.2 num_lines).rho
      = baseline_bpc from by
    rw [hsig.1, hsig.2.1, hsig.2.2, hbase]; rfl]
  exact div_self (ne_of_gt hpos)

/-- The three indicator terms are nonnegative and the regression intercept
is positive, so the predicted boardings-per-capita of any topology snapshot
is positive. (Used to discharge the positivity hypotheses of C2 and C4 at
concrete inputs.) -/
theorem compute_fri_baseline_bpc_pos (G : Graph) (topology : Topology)
    (total_length : ℚ) (num_lines : ℕ) :
    0 < compute_fri_baseline_bpc G topology total_length num_lines := by
  unfold compute_fri_baseline_bpc predict_boardings_per_capita
    compute_derrible_kennedy_indicators
  simp only
  have hsig : (0 : ℚ) ≤
      ((topology.station_lines_keys.card : ℚ) * np_pi * (1 / 2) ^ 2) / SINGAPORE_AREA := by
    apply div_nonneg _ (by norm_num [SINGAPORE_AREA])
    apply mul_nonneg (mul_nonneg (Nat.cast_nonneg _) (by norm_num [np_pi]))
    positivity
  have htau : (0 : ℚ) ≤
      (if 0 < delta_calc G num_lines
        then (num_lines : ℚ) / (delta_calc G num_lines : ℚ) else 1) := by
    split
    · exact div_nonneg (Nat.cast_nonneg _) (Nat.cast_nonneg _)
    · norm_num
  have hrho : (0 : ℚ) ≤ max 0
      (if 0 < topology.transfer_stations.card
        then (((Finset.sum (G.nodes.filter (fun n => G.isTransfer n))
            (fun n => ((topology.station_lines n).card : ℤ) - 1) : ℤ) : ℚ)
            - (topology.multiple_use_count : ℚ)) / (topology.transfer_stations.card : ℚ)
        else 0) := le_max_left _ _
  nlinarith [hsig, htau, hrho]

/-- Witness for C2: hypotheses discharged at a concrete baseline network;
the conclusion is the theorem's instantiation. -/
theorem c2_baseline_ratio_one_witness :
    c2Graph.nodes.Nonempty ∧
      (0 : ℚ) < compute_fri_baseline_bpc c2Graph c2Topo 5 1 ∧
      (scenario_stats c2Graph c2Graph c2Topo (fun _ => (0, 0)) (fun _ _ => 0) 1
        (compute_fri_baseline_bpc c2Graph c2Topo 5 1) ∅).performance_ratio = 1 :=
  ⟨by decide, compute_fri_baseline_bpc_pos c2Graph c2Topo 5 1,
    c2_baseline_ratio_one c2Graph c2Graph c2Topo (fun _ => (0, 0)) (fun _ _ => 0) 1 5
      (compute_fri_baseline_bpc c2Graph c2Topo 5 1) (by decide) rfl
      (compute_fri_baseline_bpc_pos c2Graph c2Topo 5 1)⟩

/-- Claim C10: for a disruption scenario, the recomputed indicators reuse
the baseline topology's coverage σ (computed from the unchanged
`station_lines` table), single-use count `e_s` and multiple-use count
`e_m` unchanged, so the boardings-per-capita proxy of the scenario differs
from the baseline's only through the directness τ and connectivity ρ
terms. -/
theorem c10_scenario_sigma_es_em_reused (G_baseline : Graph) (topology : Topology)
    (coords : ℕ → ℚ × ℚ) (hav : ℚ × ℚ → ℚ × ℚ → ℚ) (failed : Finset ℕ)
    (num_lines : ℕ) (baseline_length : ℚ)
    (_hne : (removeNodes G_baseline failed).nodes.Nonempty) :
    (compute_derrible_kennedy_indicators
        (simulate_disruption_scenario G_baseline topology coords hav failed).1
        (simulate_disruption_scenario G_baseline topology coords hav failed).2.1
        (simulate_disruption_scenario G_baseline topology coords hav failed).2.2
        num_lines).sigma
      = (compute_derrible_kennedy_indicators G_baseline topology baseline_length
          num_lines).sigma ∧
    (compute_derrible_kennedy_indicators
        (simulate_disruption_scenario G_baseline topology coords hav failed).1
        (simulate_disruption_scenario G_baseline topology coords hav failed).2.1
        (simulate_disruption_scenario G_baseline topology coords hav failed).2.2
        num_lines).e_s
      = (compute_derrible_kennedy_indicators G_baseline topology baseline_length
          num_lines).e_s ∧
    (compute_derrible_kennedy_indicators
        (simulate_disruption_scenario G_baseline topology coords hav failed).1
        (simulate_disruption_scenario G_baseline topology coords hav failed).2.1
        (simulate_disruption_scenario G_baseline topology coords hav failed).2.2
        num_lines).e_m
      = (compute_derrible_kennedy_indicators G_baseline topology baseline_length
          num_lines).e_m ∧
    (predict_boardings_per_capita
        (compute_derrible_kennedy_indicators
          (simulate_disruption_scenario G_baseline topology coords hav failed).1
          (simulate_disruption_scenario G_baseline topology coords hav failed).2.1
          (simulate_disruption_scenario G_baseline topology coords hav failed).2.2
          num_lines).sigma
        (compute_derrible_kennedy_indicators
          (simulate_disruption_scenario G_baseline topology coords hav failed).1
          (simulate_disruption_scenario G_baseline topology coords hav failed).2.1
          (simulate_disruption_scenario G_baseline topology coords hav failed).2.2
          num_lines).tau
        (compute_derrible_kennedy_indicators
          (simulate_disruption_scenario G_baseline topology coords hav failed).1
          (simulate_disruption_scenario G_baseline topology coords hav failed).2.1
          (simulate_disruption_scenario G_baseline topology coords hav failed).2.2
          num_lines).rho)
      - (predict_boardings_per_capita
          (compute_derrible_kennedy_indicators G_baseline topology baseline_length
            num_lines).sigma
          (compute_derrible_kennedy_indicators G_baseline topology baseline_length
            num_lines).tau
          (compute_derrible_kennedy_indicators G_baseline topology baseline_length
            num_lines).rho)
      = 7.579 * ((compute_derrible_kennedy_indicators
            (simulate_disruption_scenario G_baseline topology coords hav failed).1
            (simulate_disruption_scenario G_baseline topology coords hav failed).2.1
            (simulate_disruption_scenario G_baseline topology coords hav failed).2.2
            num_lines).tau
          - (compute_derrible_kennedy_indicators G_baseline topology baseline_length
              num_lines).tau)
        + 92.316 * ((compute_derrible_kennedy_indicators
            (simulate_disruption_scenario G_baseline topology coords hav failed).1
            (simulate_disruption_scenario G_baseline topology coords hav failed).2.1
            (simulate_disruption_scenario G_baseline topology coords hav failed).2.2
            num_lines).rho
          - (compute_derrible_kennedy_indicators G_baseline topology baseline_length
              num_lines).rho) := by
  have hsig : (compute_derrible_kennedy_indicators
      (simulate_disruption_scenario G_baseline topology coords hav failed).1
      (simulate_disruption_scenario G_baseline topology coords hav failed).2.1
      (simulate_disruption_scenario G_baseline topology coords hav failed).2.2
      num_lines).sigma
    = (compute_derrible_kennedy_indicators G_baseline topology baseline_length
        num_lines).sigma := rfl
  refine ⟨hsig, rfl, rfl, ?_⟩
  unfold predict_boardings_per_capita
  rw [hsig]
  ring

/-- Witness for C10: the nonemptiness hypothesis holds on a concrete
scenario (removing station 1 from the two-station baseline). -/
theorem c10_scenario_sigma_es_em_reused_witness :
    (removeNodes c2Graph {1}).nodes.Nonempty ∧
      ((compute_derrible_kennedy_indicators
          (simulate_disruption_scenario c2Graph c2Topo (fun _ => (0, 0)) (fun _ _ => 0) {1}).1
          (simulate_disruption_scenario c2Graph c2Topo (fun _ => (0, 0)) (fun _ _ => 0) {1}).2.1
          (simulate_disruption_scenario c2Graph c2Topo (fun _ => (0, 0)) (fun _ _ => 0) {1}).2.2
          1).sigma
        = (compute_derrible_kennedy_indicators c2Graph c2Topo 5 1).sigma) :=
  ⟨by decide,
    (c10_scenario_sigma_es_em_reused c2Graph c2Topo (fun _ => (0, 0)) (fun _ _ => 0) {1} 1 5
      (by decide)).1⟩

/-- Reachable vertices have the same component set. -/
theorem comp_eq_of_reach (G : Graph) {u v : ℕ} (hu : u ∈ G.nodes)
    (hr : Reach G u v) : comp G u = comp G v := by
  rcases reach_target_mem G hr with h | hv
  · rw [h]
  · ext w
    rw [mem_comp_iff_reach G hu, mem_comp_iff_reach G hv]
    constructor
    · intro h; exact Relation.ReflTransGen.trans (reach_symm G hr) h
    · intro h; exact Relation.ReflTransGen.trans hr h

/-! ### Claim C4 -/

/-- Claim C4: a random-failure trial for probability `p` either produces no
scenario record (exactly when `⌊N·p⌋ = 0`, with `N` the station count of
the baseline graph handed to the simulator) or records a scenario whose
failed-station set is the drawn set: `⌊N·p⌋` distinct stations (the
`np.random.choice(..., replace=False)` draw, abstracted as a subset of the
baseline stations of exactly that size; distributional uniformity is not
expressible in this embedding). -/
theorem c4_random_trial_count (G_baseline G_full : Graph) (topology : Topology)
    (coords : ℕ → ℚ × ℚ) (hav : ℚ × ℚ → ℚ × ℚ → ℚ) (num_lines : ℕ)
    (baseline_bpc : ℚ) (p : ℚ) (draw : Finset ℕ)
    (_hsub : draw ⊆ G_baseline.nodes)
    (hcard : draw.card = num_fail G_baseline.nodes.card p) :
    (num_fail G_baseline.nodes.card p = 0 →
      random_trial G_baseline G_full topology coords hav num_lines baseline_bpc p draw
        = none) ∧
    (0 < num_fail G_baseline.nodes.card p →
      ∃ rec, random_trial G_baseline G_full topology coords hav num_lines baseline_bpc p draw
          = some rec ∧
        rec.failed = draw ∧ rec.failed_count = num_fail G_baseline.nodes.card p) := by
  constructor
  · intro h0
    unfold random_trial
    rw [if_pos h0]
  · intro hpos
    unfold random_trial
    rw [if_neg (by omega)]
    refine ⟨_, rfl, ?_, ?_⟩
    · simp only [scenario_stats]
      by_cases h : 0 < (simulate_disruption_scenario G_baseline topology coords hav
          draw).1.nodes.card
      · rw [if_pos h]
      · rw [if_neg h]
    · simp only [scenario_stats]
      by_cases h : 0 < (simulate_disruption_scenario G_baseline topology coords hav
          draw).1.nodes.card
      · rw [if_pos h]
        exact hcard
      · rw [if_neg h]
        exact hcard

/-- Witness for C4: on a two-station baseline with `p = 1/2` the failure
count is `⌊2·(1/2)⌋ = 1` and the drawn single station is recorded. -/
theorem c4_random_trial_count_witness :
    ({0} : Finset ℕ) ⊆ c2Graph.nodes ∧
      ({0} : Finset ℕ).card = num_fail c2Graph.nodes.card (1 / 2) ∧
      (0 < num_fail c2Graph.nodes.card (1 / 2) →
        ∃ rec, random_trial c2Graph c2Graph c2Topo (fun _ => (0, 0)) (fun _ _ => 0) 1 1
            (1 / 2) {0} = some rec ∧
          rec.failed = {0} ∧ rec.failed_count = num_fail c2Graph.nodes.card (1 / 2)) := by
  have hnum : num_fail c2Graph.nodes.card (1 / 2) = 1 := by
    have hc : c2Graph.nodes.card = 2 := by decide
    rw [hc]
    unfold num_fail
    norm_num
  refine ⟨by decide, by rw [hnum]; decide, ?_⟩
  exact (c4_random_trial_count c2Graph c2Graph c2Topo (fun _ => (0, 0)) (fun _ _ => 0) 1 1
    (1 / 2) {0} (by decide) (by rw [hnum]; decide)).2

/-! ### Claim C5 -/

/-- Counterexample to C5 as stated: on the three-station line `0 – 1 – 2`
(one line, terminals 0 and 2), the degree-targeted selection with `k = 1`
sorts by degree of the *baseline D&K special-vertex graph* (`G_baseline`
in `compute_fri`), so it removes station 0 — even though station 1 has the
strictly highest *full-graph* degree and is not selected (it cannot be: it
is not even a node of the baseline D&K graph). The claim's guard holds:
`k = 1` is smaller than the network size. -/
theorem c5_counterexample_dk_not_full_degree :
    degree_targeted_failed c5Gfri [0, 2] 1 = {0} ∧
      1 ∉ degree_targeted_failed c5Gfri [0, 2] 1 ∧
      degreeOf c5Gfull 0 < degreeOf c5Gfull 1 := by decide

/-- Amended claim C5: for `k` smaller than the baseline node count, the
degree-targeted scenario removes exactly `k` stations, each of maximal
*baseline-D&K-graph* degree among the non-removed stations (ties broken
deterministically by the stable descending sort over the node iteration
order). -/
theorem c5_degree_targeted_amended (G : Graph) (order : List ℕ) (k : ℕ)
    (hnodup : order.Nodup) (hk : k < order.length) :
    (degree_targeted_failed G order k).card = k ∧
      ∀ u ∈ degree_targeted_failed G order k, ∀ v ∈ order,
        v ∉ degree_targeted_failed G order k → degreeOf G v ≤ degreeOf G u := by
  have hperm : List.Perm (degSorted G order) (degPairs G order) :=
    List.perm_insertionSort degSortRel (degPairs G order)
  have hsort : List.Sorted degSortRel (degSorted G order) :=
    List.sorted_insertionSort degSortRel (degPairs G order)
  have hlen : (degSorted G order).length = order.length := by
    rw [hperm.length_eq]
    unfold degPairs
    rw [List.length_map]
  have hfst : List.Perm ((degSorted G order).map Prod.fst) order := by
    refine (hperm.map _).trans ?_
    unfold degPairs
    rw [List.map_map,
      show (Prod.fst ∘ fun v => (v, degreeOf G v)) = id from rfl, List.map_id]
  have hfst_nodup : ((degSorted G order).map Prod.fst).Nodup := hfst.nodup_iff.2 hnodup
  have htake_nodup : (((degSorted G order).take k).map Prod.fst).Nodup := by
    have hsub : List.Sublist (((degSorted G order).take k).map Prod.fst)
        ((degSorted G order).map Prod.fst) :=
      (List.take_sublist k (degSorted G order)).map _
    exact hfst_nodup.sublist hsub
  have hform : ∀ e ∈ degSorted G order, e = (e.1, degreeOf G e.1) := by
    intro e he
    have : e ∈ degPairs G order := hperm.mem_iff.1 he
    rcases List.mem_map.1 this with ⟨w, _, hw⟩
    rw [← hw]
  have hcard : (degree_targeted_failed G order k).card = k := by
    unfold degree_targeted_failed
    rw [List.toFinset_card_of_nodup htake_nodup, List.length_map,
      List.length_take, hlen]
    omega
  refine ⟨hcard, ?_⟩
  intro u hu v hv hvout
  unfold degree_targeted_failed at hu hvout
  rw [List.mem_toFinset] at hu
  rcases List.mem_map.1 hu with ⟨eu, heu_mem, heu_fst⟩
  have heu_in_sorted : eu ∈ degSorted G order :=
    (List.take_sublist k (degSorted G order)).mem heu_mem
  have heu_form : eu = (u, degreeOf G u) := by
    have := hform eu heu_in_sorted
    rw [heu_fst] at this
    exact this
  have hv_entry : (v, degreeOf G v) ∈ degSorted G order :=
    hperm.mem_iff.2 (List.mem_map.2 ⟨v, hv, rfl⟩)
  have hv_split : (v, degreeOf G v) ∈
      (degSorted G order).take k ++ (degSorted G order).drop k := by
    rw [List.take_append_drop]
    exact hv_entry
  have hv_drop : (v, degreeOf G v) ∈ (degSorted G order).drop k := by
    rcases List.mem_append.1 hv_split with h | h
    · exfalso
      apply hvout
      rw [List.mem_toFinset]
      exact List.mem_map.2 ⟨_, h, rfl⟩
    · exact h
  have hpair : degSortRel eu (v, degreeOf G v) := by
    have hsplit : List.Sorted degSortRel
        ((degSorted G order).take k ++ (degSorted G order).drop k) := by
      rw [List.take_append_drop]
      exact hsort
    exact (List.pairwise_append.1 hsplit).2.2 eu heu_mem _ hv_drop
  rw [heu_form] at hpair
  exact hpair

/-! ### Claim C7 -/

theorem ekey_fst_or_snd (a b : ℕ) : (ekey a b).1 = a ∨ (ekey a b).2 = a := by
  unfold ekey
  split
  · exact Or.inl rfl
  · exact Or.inr rfl

theorem dkDegree_mono {d d2 : DKEdges} (h : d.keys ⊆ d2.keys) (v : ℕ) :
    dkDegree d v ≤ dkDegree d2 v :=
  Finset.card_le_card (Finset.filter_subset_filter _ h)

theorem dkDegree_pos_of_ekey_mem {d : DKEdges} {v u : ℕ} (h : ekey v u ∈ d.keys) :
    0 < dkDegree d v := by
  apply Finset.card_pos.2
  exact ⟨ekey v u, Finset.mem_filter.2 ⟨h, ekey_fst_or_snd v u⟩⟩

theorem repair_lines_loop_cons_none (v : ℕ) (d0 : DKEdges) (specials : List ℕ)
    (station_lines : ℕ → Finset ℕ) (l : ℕ) (ls : List ℕ) (d : DKEdges)
    (hsc : staleConnected specials station_lines d0 l = []) :
    repair_lines_loop v d0 specials station_lines (l :: ls) d =
      repair_lines_loop v d0 specials station_lines ls d := by
  conv_lhs => rw [repair_lines_loop]
  rw [hsc]

theorem repair_lines_loop_cons_some (v : ℕ) (d0 : DKEdges) (specials : List ℕ)
    (station_lines : ℕ → Finset ℕ) (l : ℕ) (ls : List ℕ) (d : DKEdges)
    (u : ℕ) (us : List ℕ)
    (hsc : staleConnected specials station_lines d0 l = u :: us) :
    repair_lines_loop v d0 specials station_lines (l :: ls) d =
      if ekey v u ∈ d.keys then repair_lines_loop v d0 specials station_lines ls d
      else
        { keys := insert (ekey v u) d.keys
          lines := fun e2 => if e2 = ekey v u then {l} else d.lines e2
          travelTime := fun e2 => if e2 = ekey v u then none else d.travelTime e2 } := by
  conv_lhs => rw [repair_lines_loop]
  rw [hsc]

theorem repair_lines_loop_keys_subset (v : ℕ) (d0 : DKEdges) (specials : List ℕ)
    (station_lines : ℕ → Finset ℕ) :
    ∀ (ls : List ℕ) (d : DKEdges),
      d.keys ⊆ (repair_lines_loop v d0 specials station_lines ls d).keys := by
  intro ls
  induction ls with
  | nil => intro d; exact fun x hx => hx
  | cons l ls ih =>
    intro d
    cases hsc : staleConnected specials station_lines d0 l with
    | nil =>
      rw [repair_lines_loop_cons_none v d0 specials station_lines l ls d hsc]
      exact ih d
    | cons u us =>
      rw [repair_lines_loop_cons_some v d0 specials station_lines l ls d u us hsc]
      by_cases hmem : ekey v u ∈ d.keys
      · rw [if_pos hmem]
        exact ih d
      · rw [if_neg hmem]
        exact fun x hx => Finset.mem_insert_of_mem hx

/-- If some line in the remaining line list has a pre-repair-connected
peer, the per-vertex repair loop leaves `v` with positive degree. -/
theorem repair_lines_loop_connects (v : ℕ) (d0 : DKEdges) (specials : List ℕ)
    (station_lines : ℕ → Finset ℕ) :
    ∀ (ls : List ℕ) (d : DKEdges),
      (∃ l ∈ ls, staleConnected specials station_lines d0 l ≠ []) →
      0 < dkDegree (repair_lines_loop v d0 specials station_lines ls d) v := by
  intro ls
  induction ls with
  | nil =>
    intro d h
    rcases h with ⟨l, hl, _⟩
    exact absurd hl (List.not_mem_nil l)
  | cons l ls ih =>
    intro d h
    cases hsc : staleConnected specials station_lines d0 l with
    | nil =>
      rw [repair_lines_loop_cons_none v d0 specials station_lines l ls d hsc]
      apply ih
      rcases h with ⟨l2, hl2, hne⟩
      rcases List.mem_cons.1 hl2 with rfl | hl2
      · exact absurd hsc hne
      · exact ⟨l2, hl2, hne⟩
    | cons u us =>
      rw [repair_lines_loop_cons_some v d0 specials station_lines l ls d u us hsc]
      by_cases hmem : ekey v u ∈ d.keys
      · rw [if_pos hmem]
        have hpos : 0 < dkDegree d v := dkDegree_pos_of_ekey_mem hmem
        exact lt_of_lt_of_le hpos
          (dkDegree_mono (repair_lines_loop_keys_subset v d0 specials station_lines ls d) v)
      · rw [if_neg hmem]
        exact dkDegree_pos_of_ekey_mem (Finset.mem_insert_self _ _)

theorem repair_fold_keys_subset (d0 : DKEdges) (specials : List ℕ)
    (station_lines : ℕ → Finset ℕ) :
    ∀ (vs : List ℕ) (d : DKEdges),
      d.keys ⊆ (vs.foldl (fun d w =>
        repair_lines_loop w d0 specials station_lines
          ((station_lines w).sort (· ≤ ·)) d) d).keys := by
  intro vs
  induction vs with
  | nil => intro d; exact fun x hx => hx
  | cons w ws ih =>
    intro d
    exact fun x hx =>
      ih _ (repair_lines_loop_keys_subset w d0 specials station_lines _ d hx)

theorem staleConnected_ne_nil {specials : List ℕ} {station_lines : ℕ → Finset ℕ}
    {d0 : DKEdges} {l u : ℕ} (hu : u ∈ specials) (hlu : l ∈ station_lines u)
    (hdeg : 0 < dkDegree d0 u) :
    staleConnected specials station_lines d0 l ≠ [] := by
  apply List.ne_nil_of_mem (a := u)
  unfold staleConnected
  rw [List.mem_filter, List.mem_filter]
  refine ⟨⟨hu, by simpa using hlu⟩, by simpa using hdeg⟩

theorem repair_fold_connects (d0 : DKEdges) (specials : List ℕ)
    (station_lines : ℕ → Finset ℕ) (v : ℕ)
    (hpeer : hasConnectedPeer specials station_lines d0 v) :
    ∀ (vs : List ℕ) (d : DKEdges), v ∈ vs →
      0 < dkDegree (vs.foldl (fun d w =>
        repair_lines_loop w d0 specials station_lines
          ((station_lines w).sort (· ≤ ·)) d) d) v := by
  intro vs
  induction vs with
  | nil => intro d hv; exact absurd hv (List.not_mem_nil v)
  | cons w ws ih =>
    intro d hv
    rcases List.mem_cons.1 hv with rfl | hv
    · have hstep : 0 < dkDegree
          (repair_lines_loop v d0 specials station_lines
            ((station_lines v).sort (· ≤ ·)) d) v := by
        apply repair_lines_loop_connects
        rcases hpeer with ⟨l, hl, u, hu, hlu, hdeg⟩
        exact ⟨l, (Finset.mem_sort _).2 hl,
          staleConnected_ne_nil hu hlu hdeg⟩
      exact lt_of_lt_of_le hstep
        (dkDegree_mono (repair_fold_keys_subset d0 specials station_lines ws _) v)
    · exact ih _ hv

/-- Claim C7: after the repair pass, every special vertex that has a
special peer on a common line with a pre-repair D&K edge ends with degree
at least 1 in the D&K edge dictionary. -/
theorem c7_repair_pass_degree_pos (specials : List ℕ)
    (station_lines : ℕ → Finset ℕ) (d0 : DKEdges) (v : ℕ)
    (hv : v ∈ specials)
    (hpeer : hasConnectedPeer specials station_lines d0 v) :
    0 < dkDegree (repair_pass specials station_lines d0) v := by
  unfold repair_pass
  simp only
  by_cases hdeg : dkDegree d0 v = 0
  · apply repair_fold_connects d0 specials station_lines v hpeer
    rw [List.mem_filter]
    exact ⟨hv, by simpa using hdeg⟩
  · have h0 : 0 < dkDegree d0 v := Nat.pos_of_ne_zero hdeg
    exact lt_of_lt_of_le h0
      (dkDegree_mono (repair_fold_keys_subset d0 specials station_lines _ d0) v)

/-- Witness for C7: the isolated vertex 0 shares line 5 with the connected
vertex 1, and the repair pass gives it positive degree. -/
theorem c7_repair_pass_degree_pos_witness :
    (0 : ℕ) ∈ [0, 1, 2] ∧ hasConnectedPeer [0, 1, 2] (fun _ => {5}) c7D0 0 ∧
      0 < dkDegree (repair_pass [0, 1, 2] (fun _ => {5}) c7D0) 0 := by
  have hpeer : hasConnectedPeer [0, 1, 2] (fun _ => {5}) c7D0 0 :=
    ⟨5, by decide, 1, by decide, by decide, by decide⟩
  exact ⟨by decide, hpeer,
    c7_repair_pass_degree_pos [0, 1, 2] (fun _ => {5}) c7D0 0 (by decide) hpeer⟩

/-- Witness for the amended C5 on the concrete D&K baseline graph. -/
theorem c5_degree_targeted_amended_witness :
    ([0, 2] : List ℕ).Nodup ∧ 1 < ([0, 2] : List ℕ).length ∧
      ((degree_targeted_failed c5Gfri [0, 2] 1).card = 1 ∧
        ∀ u ∈ degree_targeted_failed c5Gfri [0, 2] 1, ∀ v ∈ [0, 2],
          v ∉ degree_targeted_failed c5Gfri [0, 2] 1 →
            degreeOf c5Gfri v ≤ degreeOf c5Gfri u) :=
  ⟨by decide, by decide,
    c5_degree_targeted_amended c5Gfri [0, 2] 1 (by decide) (by decide)⟩

/-! ### Claim C3 -/

theorem comp_mem_componentsList (G : Graph) {v : ℕ} (hv : v ∈ G.nodes) :
    comp G v ∈ componentsList G := by
  unfold componentsList
  rw [List.mem_dedup]
  exact List.mem_map.2 ⟨v, (Finset.mem_sort _).2 hv, rfl⟩

theorem componentsList_form (G : Graph) {c : Finset ℕ}
    (hc : c ∈ componentsList G) : ∃ w ∈ G.nodes, c = comp G w := by
  unfold componentsList at hc
  rw [List.mem_dedup] at hc
  rcases List.mem_map.1 hc with ⟨w, hw, rfl⟩
  exact ⟨w, (Finset.mem_sort _).1 hw, rfl⟩

/-- The same-component distinct ordered pairs are exactly the union of the
off-diagonal squares of the connected components. -/
theorem sameCompPairs_filter_eq (G : Graph) :
    (G.nodes ×ˢ G.nodes).filter (fun p => p.1 ≠ p.2 ∧ sameComp G p.1 p.2)
      = (componentsList G).toFinset.biUnion Finset.offDiag := by
  ext p
  constructor
  · intro hp
    rcases Finset.mem_filter.1 hp with ⟨hmem, hne, hsc⟩
    rcases Finset.mem_product.1 hmem with ⟨h1, h2⟩
    apply Finset.mem_biUnion.2
    refine ⟨comp G p.1, List.mem_toFinset.2 (comp_mem_componentsList G h1), ?_⟩
    rw [Finset.mem_offDiag]
    exact ⟨mem_comp_self G h1, hsc, hne⟩
  · intro hp
    rcases Finset.mem_biUnion.1 hp with ⟨c, hc, hpc⟩
    rcases componentsList_form G (List.mem_toFinset.1 hc) with ⟨w, hw, rfl⟩
    rcases Finset.mem_offDiag.1 hpc with ⟨h1, h2, hne⟩
    have h1n : p.1 ∈ G.nodes := comp_subset_nodes G hw h1
    have h2n : p.2 ∈ G.nodes := comp_subset_nodes G hw h2
    have hcompeq : comp G p.1 = comp G w :=
      (comp_eq_of_reach G hw (reach_of_mem_comp G hw h1)).symm
    refine Finset.mem_filter.2 ⟨Finset.mem_product.2 ⟨h1n, h2n⟩, hne, ?_⟩
    unfold sameComp
    rw [hcompeq]
    exact h2
/-- Components listed by `componentsList` are pairwise disjoint as sets of
vertices, so their off-diagonals are disjoint pair sets. -/
theorem componentsList_offDiag_disjoint (G : Graph) :
    ∀ c1 ∈ (componentsList G).toFinset, ∀ c2 ∈ (componentsList G).toFinset,
      c1 ≠ c2 → Disjoint (Finset.offDiag c1) (Finset.offDiag c2) := by
  intro c1 hc1 c2 hc2 hne
  rcases componentsList_form G (List.mem_toFinset.1 hc1) with ⟨w1, hw1, rfl⟩
  rcases componentsList_form G (List.mem_toFinset.1 hc2) with ⟨w2, hw2, rfl⟩
  rw [Finset.disjoint_left]
  intro p hp1 hp2
  rcases Finset.mem_offDiag.1 hp1 with ⟨ha1, _, _⟩
  rcases Finset.mem_offDiag.1 hp2 with ⟨ha2, _, _⟩
  apply hne
  have he1 : comp G p.1 = comp G w1 :=
    (comp_eq_of_reach G hw1 (reach_of_mem_comp G hw1 ha1)).symm
  have he2 : comp G p.1 = comp G w2 :=
    (comp_eq_of_reach G hw2 (reach_of_mem_comp G hw2 ha2)).symm
  rw [← he1, ← he2]

/-- The ordered same-component pair count is the sum of `n² − n` over the
connected components. -/
theorem sameCompPairs_eq_sum (G : Graph) :
    sameCompPairs G
      = Finset.sum (componentsList G).toFinset (fun c => c.card * c.card - c.card) := by
  unfold sameCompPairs
  rw [sameCompPairs_filter_eq, Finset.card_biUnion (componentsList_offDiag_disjoint G)]
  exact Finset.sum_congr rfl (fun c _ => Finset.offDiag_card c)

theorem sameCompPairs_of_isConn (G : Graph) (h : isConn G) :
    sameCompPairs G = G.nodes.card * G.nodes.card - G.nodes.card := by
  unfold sameCompPairs
  rw [show (G.nodes ×ˢ G.nodes).filter (fun p => p.1 ≠ p.2 ∧ sameComp G p.1 p.2)
      = G.nodes.offDiag from ?_, Finset.offDiag_card]
  ext p
  rw [Finset.mem_offDiag, Finset.mem_filter, Finset.mem_product]
  constructor
  · rintro ⟨⟨h1, h2⟩, hne, _⟩
    exact ⟨h1, h2, hne⟩
  · rintro ⟨h1, h2, hne⟩
    exact ⟨⟨h1, h2⟩, hne, h p.1 h1 p.2 h2⟩

theorem sameCompPairs_of_card_le_one (G : Graph) (h : G.nodes.card ≤ 1) :
    sameCompPairs G = 0 := by
  unfold sameCompPairs
  rw [Finset.card_eq_zero]
  ext p
  simp only [Finset.mem_filter, Finset.mem_product, Finset.not_mem_empty, iff_false]
  rintro ⟨⟨h1, h2⟩, hne, _⟩
  exact hne (Finset.card_le_one.1 h p.1 h1 p.2 h2)

theorem nat_le_sq (n : ℕ) : n ≤ n * n := by
  cases n with
  | zero => exact Nat.le_refl 0
  | succ m => exact Nat.le_mul_of_pos_left _ (Nat.succ_pos m)

theorem cast_sq_sub (n : ℕ) : ((n * n - n : ℕ) : ℚ) = (n : ℚ) * (n : ℚ) - (n : ℚ) := by
  rw [Nat.cast_sub (nat_le_sq n)]
  push_cast
  ring

/-- Amended claim C3: for every disruption scenario whose post-removal
full graph is nonempty, the recorded reachability metric is a
*percentage*: the number of unordered station pairs within the same
connected component of the post-removal full graph, divided by the
*hard-coded* pair count `170 · 169 / 2 = 14365` (not by a count derived
from the input network), times 100. -/
theorem c3_reachable_pct_amended (G_full : Graph) (failed : Finset ℕ)
    (_hne : (inducedSubgraph G_full (G_full.nodes \ failed)).nodes.Nonempty) :
    reachable_pct_calc G_full failed
      = ((sameCompPairs (inducedSubgraph G_full (G_full.nodes \ failed)) : ℚ) / 2
          / (170 * 169 / 2)) * 100 := by
  simp only [reachable_pct_calc]
  by_cases h1 : 1 < (inducedSubgraph G_full (G_full.nodes \ failed)).nodes.card
  · rw [if_pos h1]
    by_cases hconn : isConn (inducedSubgraph G_full (G_full.nodes \ failed))
    · rw [if_pos hconn, sameCompPairs_of_isConn _ hconn, cast_sq_sub]
      ring
    · rw [if_neg hconn, sameCompPairs_eq_sum]
      have hsum : ((componentsList (inducedSubgraph G_full (G_full.nodes \ failed))).map
          (fun c => if 1 < c.card then (c.card : ℚ) * ((c.card : ℚ) - 1) / 2 else 0)).sum
          = ((Finset.sum (componentsList (inducedSubgraph G_full (G_full.nodes \ failed))).toFinset
              (fun c => c.card * c.card - c.card) : ℕ) : ℚ) / 2 := by
        have hnodup : (componentsList (inducedSubgraph G_full
            (G_full.nodes \ failed))).Nodup := by
          unfold componentsList
          exact List.nodup_dedup _
        rw [Nat.cast_sum, Finset.sum_div, List.sum_toFinset _ hnodup]
        congr 1
        apply List.map_congr_left
        intro c _
        by_cases hc : 1 < c.card
        · rw [if_pos hc, cast_sq_sub]
          ring
        · rw [if_neg hc]
          have : c.card * c.card - c.card = 0 := by
            interval_cases h : c.card <;> simp
          rw [this]
          norm_num
      rw [hsum]
  · rw [if_neg h1]
    rw [sameCompPairs_of_card_le_one _ (by omega)]
    norm_num

/-- Witness for the amended C3: the nonemptiness hypothesis holds on the
concrete four-station path with no removals. -/
theorem c3_reachable_pct_amended_witness :
    (inducedSubgraph c3G (c3G.nodes \ ∅)).nodes.Nonempty ∧
      reachable_pct_calc c3G ∅
        = ((sameCompPairs (inducedSubgraph c3G (c3G.nodes \ ∅)) : ℚ) / 2
            / (170 * 169 / 2)) * 100 :=
  ⟨by decide, c3_reachable_pct_amended c3G ∅ (by decide)⟩

/-- Counterexample to C3 as stated: on the connected four-station path
with nothing removed, the code computes
`(6 / (170·169/2)) · 100 = 120/2873` — the denominator is the hard-coded
Singapore pair count and the result is a percentage — whereas the claim's
formula (same-component pairs over `N·(N−1)/2` with `N` the input
network's station count) gives `6 / 6 = 1`. -/
theorem c3_counterexample_hardcoded_denominator :
    reachable_pct_calc c3G ∅ = 120 / 2873 ∧
      ((sameCompPairs (inducedSubgraph c3G (c3G.nodes \ ∅)) : ℚ) / 2)
          / ((c3G.nodes.card : ℚ) * ((c3G.nodes.card : ℚ) - 1) / 2) = 1 ∧
      (120 / 2873 : ℚ) ≠ 1 := by
  have hcard : (inducedSubgraph c3G (c3G.nodes \ ∅)).nodes.card = 4 := by decide
  have hconn : isConn (inducedSubgraph c3G (c3G.nodes \ ∅)) := by decide
  have hpairs : sameCompPairs (inducedSubgraph c3G (c3G.nodes \ ∅)) = 12 := by decide
  have hcard2 : c3G.nodes.card = 4 := by decide
  refine ⟨?_, ?_, by norm_num⟩
  · simp only [reachable_pct_calc]
    rw [if_pos (by rw [hcard]; norm_num), if_pos hconn, hcard]
    norm_num
  · rw [hpairs, hcard2]
    norm_num

/-! ### Claim C6: line-change BFS correctness -/

theorem mem_transitionsOf {G : Graph} {s l c : ℕ} {p : (ℕ × ℕ) × ℕ} :
    p ∈ transitionsOf G s l c ↔
      ∃ t ∈ nbrFinset G s, ∃ l2 ∈ G.edgeLines (ekey s t),
        p = ((t, l2), c + if l2 = l then 0 else 1) := by
  unfold transitionsOf nbrList
  rw [List.mem_flatMap]
  constructor
  · rintro ⟨t, ht, hp⟩
    rw [List.mem_map] at hp
    rcases hp with ⟨l2, hl2, rfl⟩
    exact ⟨t, (Finset.mem_sort _).1 ht, l2, (Finset.mem_sort _).1 hl2, rfl⟩
  · rintro ⟨t, ht, l2, hl2, rfl⟩
    refine ⟨t, (Finset.mem_sort _).2 ht, ?_⟩
    rw [List.mem_map]
    exact ⟨l2, (Finset.mem_sort _).2 hl2, rfl⟩

theorem updVis_self (vis : ℕ × ℕ → Option ℕ) (k : ℕ × ℕ) (c : ℕ) :
    updVis vis k c k = some c := by
  unfold updVis
  rw [if_pos rfl]

theorem updVis_other (vis : ℕ × ℕ → Option ℕ) {k k2 : ℕ × ℕ} (c : ℕ)
    (h : k2 ≠ k) : updVis vis k c k2 = vis k2 := by
  unfold updVis
  rw [if_neg h]

theorem visDomain_mono_upd (G : Graph) (source : ℕ) (vis : ℕ × ℕ → Option ℕ)
    (k : ℕ × ℕ) (c : ℕ) :
    visDomain G source vis ⊆ visDomain G source (updVis vis k c) := by
  intro k2 hk2
  rcases Finset.mem_filter.1 hk2 with ⟨hU, hsome⟩
  apply Finset.mem_filter.2
  refine ⟨hU, ?_⟩
  by_cases h : k2 = k
  · subst h
    rw [updVis_self]
    rfl
  · rw [updVis_other _ _ h]
    exact hsome

theorem visDomain_upd_fresh (G : Graph) (source : ℕ) (vis : ℕ × ℕ → Option ℕ)
    {k : ℕ × ℕ} (c : ℕ) (hU : k ∈ stateUniverse G source) (hnone : vis k = none) :
    visDomain G source (updVis vis k c) = insert k (visDomain G source vis) := by
  unfold visDomain
  ext k2
  rw [Finset.mem_insert, Finset.mem_filter, Finset.mem_filter]
  by_cases h : k2 = k
  · subst h
    rw [updVis_self]
    simp [hU]
  · rw [updVis_other _ _ h]
    simp [h]

theorem visDomain_upd_existing (G : Graph) (source : ℕ) (vis : ℕ × ℕ → Option ℕ)
    {k : ℕ × ℕ} (c : ℕ) (hsome : (vis k).isSome = true) :
    visDomain G source (updVis vis k c) = visDomain G source vis := by
  unfold visDomain
  ext k2
  rw [Finset.mem_filter, Finset.mem_filter]
  by_cases h : k2 = k
  · subst h
    rw [updVis_self]
    simp [hsome]
  · rw [updVis_other _ _ h]

theorem visDomain_subset_universe (G : Graph) (source : ℕ)
    (vis : ℕ × ℕ → Option ℕ) :
    visDomain G source vis ⊆ stateUniverse G source :=
  Finset.filter_subset _ _

theorem visCap_none (cap : ℕ) : visCap cap none = cap + 1 := rfl

theorem visCap_some (cap v : ℕ) : visCap cap (some v) = v := rfl

theorem visMeasure_upd_lt (G : Graph) (source : ℕ) (vis : ℕ × ℕ → Option ℕ)
    {k : ℕ × ℕ} {c : ℕ} (hU : k ∈ stateUniverse G source)
    (himp : improves vis k c = true) (hc : c ≤ (stateUniverse G source).card) :
    visMeasure G source (updVis vis k c) + 1 ≤ visMeasure G source vis := by
  unfold visMeasure
  rw [← Finset.sum_erase_add _ _ hU, ← Finset.sum_erase_add _ _ hU]
  have hsame : Finset.sum ((stateUniverse G source).erase k)
      (fun k2 => visCap (stateUniverse G source).card (updVis vis k c k2))
      = Finset.sum ((stateUniverse G source).erase k)
        (fun k2 => visCap (stateUniverse G source).card (vis k2)) := by
    apply Finset.sum_congr rfl
    intro k2 hk2
    rw [updVis_other _ _ (Finset.ne_of_mem_erase hk2)]
  rw [hsame, updVis_self, visCap_some]
  unfold improves at himp
  cases hv : vis k with
  | none =>
    rw [visCap_none]
    omega
  | some v0 =>
    rw [visCap_some]
    have hlt : c < v0 := of_decide_eq_true (by rw [hv] at himp; exact himp)
    omega

theorem relaxedAt_mono {G : Graph} {target : ℕ} {vis vis2 : ℕ × ℕ → Option ℕ}
    {best best2 : Option ℕ} {k : ℕ × ℕ} {v : ℕ}
    (hvis : ∀ k2 v2, vis k2 = some v2 → ∃ v3, vis2 k2 = some v3 ∧ v3 ≤ v2)
    (hbest : ∀ b, best = some b → ∃ b2, best2 = some b2 ∧ b2 ≤ b)
    (h : relaxedAt G target vis best k v) : relaxedAt G target vis2 best2 k v := by
  unfold relaxedAt at h ⊢
  split at h
  · rw [if_pos (by assumption)]
    rcases h with ⟨b, hb, hbv⟩
    rcases hbest b hb with ⟨b2, hb2, hb2b⟩
    exact ⟨b2, hb2, le_trans hb2b hbv⟩
  · rw [if_neg (by assumption)]
    intro t ht l2 hl2
    rcases h t ht l2 hl2 with ⟨v2, hv2, hle⟩
    rcases hvis _ _ hv2 with ⟨v3, hv3, hle2⟩
    exact ⟨v3, hv3, le_trans hle2 hle⟩

theorem seedFold_other (source : ℕ) :
    ∀ (ls : List ℕ) (vis : ℕ × ℕ → Option ℕ) (k : ℕ × ℕ),
      (∀ l ∈ ls, k ≠ (source, l)) →
      (ls.foldl (fun v l2 => updVis v (source, l2) 0) vis) k = vis k := by
  intro ls
  induction ls with
  | nil => intro vis k _; rfl
  | cons l0 rest ih =>
    intro vis k hk
    show (rest.foldl (fun v l2 => updVis v (source, l2) 0) (updVis vis (source, l0) 0)) k
      = vis k
    rw [ih _ _ (fun l hl => hk l (List.mem_cons_of_mem _ hl)),
      updVis_other _ _ (hk l0 (List.mem_cons_self _ _))]

theorem seedFold_mem (source : ℕ) :
    ∀ (ls : List ℕ) (vis : ℕ × ℕ → Option ℕ) (l : ℕ), l ∈ ls →
      (ls.foldl (fun v l2 => updVis v (source, l2) 0) vis) (source, l) = some 0 := by
  intro ls
  induction ls with
  | nil => intro vis l hl; exact absurd hl (List.not_mem_nil l)
  | cons l0 rest ih =>
    intro vis l hl
    show (rest.foldl (fun v l2 => updVis v (source, l2) 0) (updVis vis (source, l0) 0))
        (source, l) = some 0
    by_cases hmem : l ∈ rest
    · exact ih _ _ hmem
    · have hl0 : l = l0 := by
        rcases List.mem_cons.1 hl with h | h
        · exact h
        · exact absurd h hmem
      subst hl0
      rw [seedFold_other source rest _ _ (fun l2 hl2 => by
        intro heq
        apply hmem
        have : l = l2 := congrArg Prod.snd heq
        rw [this]
        exact hl2)]
      exact updVis_self _ _ _

theorem improves_eq_true_cases {vis : ℕ × ℕ → Option ℕ} {k : ℕ × ℕ} {c : ℕ}
    (h : improves vis k c = true) :
    vis k = none ∨ ∃ v0, vis k = some v0 ∧ c < v0 := by
  unfold improves at h
  cases hv : vis k with
  | none => exact Or.inl rfl
  | some v0 =>
    rw [hv] at h
    exact Or.inr ⟨v0, rfl, of_decide_eq_true h⟩

theorem improves_eq_false_cases {vis : ℕ × ℕ → Option ℕ} {k : ℕ × ℕ} {c : ℕ}
    (h : improves vis k c = false) :
    ∃ v0, vis k = some v0 ∧ v0 ≤ c := by
  unfold improves at h
  cases hv : vis k with
  | none =>
    rw [hv] at h
    exact absurd h (by simp)
  | some v0 =>
    rw [hv] at h
    have := of_decide_eq_false h
    exact ⟨v0, rfl, by omega⟩

theorem relaxAll_cons (k : ℕ × ℕ) (c : ℕ) (rest : List ((ℕ × ℕ) × ℕ))
    (vis : ℕ × ℕ → Option ℕ) (q : List ((ℕ × ℕ) × ℕ)) :
    relaxAll ((k, c) :: rest) vis q =
      if improves vis k c then relaxAll rest (updVis vis k c) (q ++ [(k, c)])
      else relaxAll rest vis q := rfl

/-- Pointwise improvement property of a single relaxation update. -/
theorem updVis_improve {vis : ℕ × ℕ → Option ℕ} {k : ℕ × ℕ} {c : ℕ}
    (himp : improves vis k c = true) :
    ∀ k2 v2, vis k2 = some v2 → ∃ v3, updVis vis k c k2 = some v3 ∧ v3 ≤ v2 := by
  intro k2 v2 h2
  by_cases hk : k2 = k
  · subst hk
    rcases improves_eq_true_cases himp with hnone | ⟨v0, hv0, hlt⟩
    · rw [hnone] at h2
      exact absurd h2 (by simp)
    · rw [hv0] at h2
      injection h2 with h2
      subst h2
      exact ⟨c, updVis_self _ _ _, le_of_lt hlt⟩
  · rw [updVis_other _ _ hk]
    exact ⟨v2, h2, le_refl _⟩

/-- The main induction along the transition list of one expanded state:
the invariant (stability exempted at the expanded key `k0`) is preserved,
every listed transition ends visited within its announced cost, visited
values only improve, queue entries persist, new visited values carry queue
entries, the visited domain grows, and the measure does not increase. -/
theorem relaxAll_inv (G : Graph) (source target : ℕ) (k0 : ℕ × ℕ) (best : Option ℕ) :
    ∀ (ts : List ((ℕ × ℕ) × ℕ)) (vis : ℕ × ℕ → Option ℕ) (q : List ((ℕ × ℕ) × ℕ)),
      BfsInvP G source target (fun k => k ≠ k0) q vis best →
      (∀ p ∈ ts, CostReachT G source target p.1 p.2) →
      (∀ p ∈ ts, p.1 ∈ stateUniverse G source) →
      (∀ p ∈ ts, p.2 ≤ (visDomain G source vis).card + 1) →
      BfsInvP G source target (fun k => k ≠ k0) (relaxAll ts vis q).2 (relaxAll ts vis q).1 best
      ∧ (∀ p ∈ ts, ∃ v2, (relaxAll ts vis q).1 p.1 = some v2 ∧ v2 ≤ p.2)
      ∧ (∀ k v, vis k = some v → ∃ v2, (relaxAll ts vis q).1 k = some v2 ∧ v2 ≤ v)
      ∧ (∀ e ∈ q, e ∈ (relaxAll ts vis q).2)
      ∧ (∀ k v2, (relaxAll ts vis q).1 k = some v2 →
          vis k = some v2 ∨ ∃ e ∈ (relaxAll ts vis q).2, e.1 = k ∧ e.2 = v2)
      ∧ visDomain G source vis ⊆ visDomain G source (relaxAll ts vis q).1
      ∧ ((stateUniverse G source).card + 2) * visMeasure G source (relaxAll ts vis q).1
          + (relaxAll ts vis q).2.length
        ≤ ((stateUniverse G source).card + 2) * visMeasure G source vis + q.length := by
  intro ts
  induction ts with
  | nil =>
    intro vis q hInv _ _ _
    exact ⟨hInv, by simp, fun k v h => ⟨v, h, le_refl v⟩, fun e he => he,
      fun k v2 h => Or.inl h, fun x hx => hx, le_refl _⟩
  | cons p rest ih =>
    obtain ⟨k, c⟩ := p
    intro vis q hInv hs hd hb
    rw [relaxAll_cons]
    by_cases himp : improves vis k c = true
    · rw [if_pos himp]
      have hkU : k ∈ stateUniverse G source := hd (k, c) (List.mem_cons_self _ _)
      have hsound_kc : CostReachT G source target k c := hs (k, c) (List.mem_cons_self _ _)
      have hcb : c ≤ (visDomain G source vis).card + 1 := hb (k, c) (List.mem_cons_self _ _)
      have hcbound : c ≤ (visDomain G source (updVis vis k c)).card := by
        rcases improves_eq_true_cases himp with hnone | ⟨v0, hv0, hlt⟩
        · rw [visDomain_upd_fresh G source vis c hkU hnone,
            Finset.card_insert_of_not_mem (fun hmem => by
              rcases Finset.mem_filter.1 hmem with ⟨_, hsome⟩
              rw [hnone] at hsome
              exact absurd hsome (by simp))]
          omega
        · rw [visDomain_upd_existing G source vis c (by rw [hv0]; rfl)]
          have := hInv.visBound k v0 hv0
          omega
      have hdomc : (visDomain G source vis).card
          ≤ (visDomain G source (updVis vis k c)).card :=
        Finset.card_le_card (visDomain_mono_upd G source vis k c)
      have hmid : BfsInvP G source target (fun k2 => k2 ≠ k0)
          (q ++ [(k, c)]) (updVis vis k c) best := by
        constructor
        · intro e he
          rcases List.mem_append.1 he with he | he
          · exact hInv.qSound e he
          · rw [List.mem_singleton.1 he]
            exact hsound_kc
        · intro e he
          rcases List.mem_append.1 he with he | he
          · exact hInv.qDom e he
          · rw [List.mem_singleton.1 he]
            exact hkU
        · intro e he
          rcases List.mem_append.1 he with he | he
          · exact le_trans (hInv.qBound e he) hdomc
          · rw [List.mem_singleton.1 he]
            exact hcbound
        · intro k2 h2
          by_cases hk : k2 = k
          · subst hk
            exact hkU
          · rw [updVis_other _ _ hk] at h2
            exact hInv.visDom k2 h2
        · intro k2 v2 h2
          by_cases hk : k2 = k
          · subst hk
            rw [updVis_self] at h2
            injection h2 with h2
            rw [← h2]
            exact hsound_kc
          · rw [updVis_other _ _ hk] at h2
            exact hInv.visSound k2 v2 h2
        · intro k2 v2 h2
          by_cases hk : k2 = k
          · subst hk
            rw [updVis_self] at h2
            injection h2 with h2
            rw [← h2]
            exact hcbound
          · rw [updVis_other _ _ hk] at h2
            exact le_trans (hInv.visBound k2 v2 h2) hdomc
        · intro l hl
          by_cases hk : (source, l) = k
          · exfalso
            rcases improves_eq_true_cases himp with hnone | ⟨v0, hv0, hlt⟩
            · rw [← hk, hInv.seedsVis l hl] at hnone
              exact absurd hnone (by simp)
            · rw [← hk, hInv.seedsVis l hl] at hv0
              injection hv0 with hv0
              omega
          · rw [updVis_other _ _ hk]
            exact hInv.seedsVis l hl
        · intro k2 v2 h2 hP
          by_cases hk : k2 = k
          · subst hk
            rw [updVis_self] at h2
            injection h2 with h2
            exact Or.inl ⟨(k2, c), List.mem_append_right _ (List.mem_singleton_self _),
              rfl, h2.symm ▸ rfl⟩
          · rw [updVis_other _ _ hk] at h2
            rcases hInv.stab k2 v2 h2 hP with ⟨e, he, he1, he2⟩ | hrel
            · exact Or.inl ⟨e, List.mem_append_left _ he, he1, he2⟩
            · exact Or.inr (relaxedAt_mono (updVis_improve himp)
                (fun b hb2 => ⟨b, hb2, le_refl b⟩) hrel)
        · exact hInv.bestSound
      have hrest_sound : ∀ p ∈ rest, CostReachT G source target p.1 p.2 :=
        fun p hp => hs p (List.mem_cons_of_mem _ hp)
      have hrest_dom : ∀ p ∈ rest, p.1 ∈ stateUniverse G source :=
        fun p hp => hd p (List.mem_cons_of_mem _ hp)
      have hrest_bound : ∀ p ∈ rest,
          p.2 ≤ (visDomain G source (updVis vis k c)).card + 1 :=
        fun p hp => le_trans (hb p (List.mem_cons_of_mem _ hp)) (by omega)
      obtain ⟨ih1, ih2, ih3, ih4, ih5, ih6, ih7⟩ :=
        ih (updVis vis k c) (q ++ [(k, c)]) hmid hrest_sound hrest_dom hrest_bound
      refine ⟨ih1, ?_, ?_, ?_, ?_, ?_, ?_⟩
      · intro p hp
        rcases List.mem_cons.1 hp with rfl | hp
        · rcases ih3 k c (updVis_self _ _ _) with ⟨v2, hv2, hle⟩
          exact ⟨v2, hv2, hle⟩
        · exact ih2 p hp
      · intro k2 v h2
        by_cases hk : k2 = k
        · subst hk
          rcases improves_eq_true_cases himp with hnone | ⟨v0, hv0, hlt⟩
          · rw [hnone] at h2
            exact absurd h2 (by simp)
          · rw [hv0] at h2
            injection h2 with h2
            subst h2
            rcases ih3 k2 c (updVis_self _ _ _) with ⟨v2, hv2, hle⟩
            exact ⟨v2, hv2, by omega⟩
        · rcases ih3 k2 v (by rw [updVis_other _ _ hk]; exact h2) with ⟨v2, hv2, hle⟩
          exact ⟨v2, hv2, hle⟩
      · intro e he
        exact ih4 e (List.mem_append_left _ he)
      · intro k2 v2 h2
        rcases ih5 k2 v2 h2 with hup | hentry
        · by_cases hk : k2 = k
          · subst hk
            rw [updVis_self] at hup
            injection hup with hup
            refine Or.inr ⟨(k2, c), ih4 _ (List.mem_append_right _ (List.mem_singleton_self _)),
              rfl, hup⟩
          · rw [updVis_other _ _ hk] at hup
            exact Or.inl hup
        · exact Or.inr hentry
      · exact subset_trans (visDomain_mono_upd G source vis k c) ih6
      · have hstep : visMeasure G source (updVis vis k c) + 1 ≤ visMeasure G source vis :=
          visMeasure_upd_lt G source vis hkU himp
            (le_trans hcbound
              (Finset.card_le_card (visDomain_subset_universe G source _)))
        have hmul : ((stateUniverse G source).card + 2)
              * (visMeasure G source (updVis vis k c) + 1)
            ≤ ((stateUniverse G source).card + 2) * visMeasure G source vis :=
          Nat.mul_le_mul_left _ hstep
        rw [Nat.mul_succ] at hmul
        calc ((stateUniverse G source).card + 2)
              * visMeasure G source (relaxAll rest (updVis vis k c) (q ++ [(k, c)])).1
              + (relaxAll rest (updVis vis k c) (q ++ [(k, c)])).2.length
            ≤ ((stateUniverse G source).card + 2) * visMeasure G source (updVis vis k c)
              + (q ++ [(k, c)]).length := ih7
          _ ≤ ((stateUniverse G source).card + 2) * visMeasure G source vis + q.length := by
              rw [List.length_append]
              simp only [List.length_singleton]
              omega
    · have hfalse : improves vis k c = false := by
        cases h : improves vis k c
        · rfl
        · exact absurd h himp
      rw [if_neg (by rw [hfalse]; exact Bool.false_ne_true)]
      rcases improves_eq_false_cases hfalse with ⟨v0, hv0, hv0c⟩
      have hrest_sound : ∀ p ∈ rest, CostReachT G source target p.1 p.2 :=
        fun p hp => hs p (List.mem_cons_of_mem _ hp)
      have hrest_dom : ∀ p ∈ rest, p.1 ∈ stateUniverse G source :=
        fun p hp => hd p (List.mem_cons_of_mem _ hp)
      have hrest_bound : ∀ p ∈ rest, p.2 ≤ (visDomain G source vis).card + 1 :=
        fun p hp => hb p (List.mem_cons_of_mem _ hp)
      obtain ⟨ih1, ih2, ih3, ih4, ih5, ih6, ih7⟩ :=
        ih vis q hInv hrest_sound hrest_dom hrest_bound
      refine ⟨ih1, ?_, ih3, ih4, ih5, ih6, ih7⟩
      intro p hp
      rcases List.mem_cons.1 hp with rfl | hp
      · rcases ih3 k v0 hv0 with ⟨v2, hv2, hle⟩
        exact ⟨v2, hv2, by omega⟩
      · exact ih2 p hp

theorem minOpt_le_arg (best : Option ℕ) (c : ℕ) :
    ∃ b, minOpt best c = some b ∧ b ≤ c := by
  cases best with
  | none => exact ⟨c, rfl, le_refl c⟩
  | some v0 => exact ⟨min v0 c, rfl, min_le_right v0 c⟩

theorem minOpt_mono (best : Option ℕ) (c : ℕ) :
    ∀ b, best = some b → ∃ b2, minOpt best c = some b2 ∧ b2 ≤ b := by
  intro b hb
  cases best with
  | none => exact absurd hb (by simp)
  | some v0 =>
    injection hb with hb
    exact ⟨min v0 c, rfl, by rw [← hb]; exact min_le_left v0 c⟩

theorem minOpt_cases {best : Option ℕ} {c b2 : ℕ} (h : minOpt best c = some b2) :
    b2 = c ∨ best = some b2 := by
  cases best with
  | none =>
    injection h with h
    exact Or.inl h.symm
  | some v0 =>
    injection h with h
    rcases le_total v0 c with hle | hle
    · right
      rw [← h, Nat.min_eq_left hle]
    · left
      rw [← h, Nat.min_eq_right hle]

theorem bfsLoop_cons_eq (G : Graph) (target fuel s l c : ℕ)
    (q : List ((ℕ × ℕ) × ℕ)) (vis : ℕ × ℕ → Option ℕ) (best : Option ℕ) :
    bfsLoop G target (fuel + 1) (((s, l), c) :: q) vis best =
      if s = target then bfsLoop G target fuel q vis (minOpt best c)
      else bfsLoop G target fuel (relaxAll (transitionsOf G s l c) vis q).2
        (relaxAll (transitionsOf G s l c) vis q).1 best := rfl

/-- Popping a target state only folds its count into the best value. -/
theorem step_target_inv (G : Graph) (source target l c : ℕ)
    (q : List ((ℕ × ℕ) × ℕ)) (vis : ℕ × ℕ → Option ℕ) (best : Option ℕ)
    (hInv : BfsInv G source target (((target, l), c) :: q) vis best) :
    BfsInv G source target q vis (minOpt best c) := by
  constructor
  · exact fun e he => hInv.qSound e (List.mem_cons_of_mem _ he)
  · exact fun e he => hInv.qDom e (List.mem_cons_of_mem _ he)
  · exact fun e he => hInv.qBound e (List.mem_cons_of_mem _ he)
  · exact hInv.visDom
  · exact hInv.visSound
  · exact hInv.visBound
  · exact hInv.seedsVis
  · intro k v h _
    rcases hInv.stab k v h trivial with ⟨e, he, he1, he2⟩ | hrel
    · rcases List.mem_cons.1 he with rfl | he
      · right
        unfold relaxedAt
        rw [if_pos (by rw [← he1])]
        rcases minOpt_le_arg best c with ⟨b, hb, hbc⟩
        exact ⟨b, hb, by rw [← he2]; exact hbc⟩
      · exact Or.inl ⟨e, he, he1, he2⟩
    · exact Or.inr (relaxedAt_mono (fun k2 v2 h2 => ⟨v2, h2, le_refl _⟩)
        (minOpt_mono best c) hrel)
  · intro b2 hb2
    rcases minOpt_cases hb2 with rfl | hb
    · have := hInv.qSound ((target, l), b2) (List.mem_cons_self _ _)
      exact ⟨l, this⟩
    · exact hInv.bestSound b2 hb

/-- Expanding a popped non-target state preserves the full invariant and
does not increase the measure (relative to the shortened queue). -/
theorem step_expand_inv (G : Graph) (source target s l c : ℕ)
    (q : List ((ℕ × ℕ) × ℕ)) (vis : ℕ × ℕ → Option ℕ) (best : Option ℕ)
    (hne : s ≠ target)
    (hInv : BfsInv G source target (((s, l), c) :: q) vis best) :
    BfsInv G source target (relaxAll (transitionsOf G s l c) vis q).2
      (relaxAll (transitionsOf G s l c) vis q).1 best
    ∧ ((stateUniverse G source).card + 2)
          * visMeasure G source (relaxAll (transitionsOf G s l c) vis q).1
        + (relaxAll (transitionsOf G s l c) vis q).2.length
      ≤ ((stateUniverse G source).card + 2) * visMeasure G source vis + q.length := by
  have hheadSound : CostReachT G source target (s, l) c :=
    hInv.qSound ((s, l), c) (List.mem_cons_self _ _)
  have hheadBound : c ≤ (visDomain G source vis).card :=
    hInv.qBound ((s, l), c) (List.mem_cons_self _ _)
  have hInvP : BfsInvP G source target (fun k => k ≠ (s, l)) q vis best := by
    constructor
    · exact fun e he => hInv.qSound e (List.mem_cons_of_mem _ he)
    · exact fun e he => hInv.qDom e (List.mem_cons_of_mem _ he)
    · exact fun e he => hInv.qBound e (List.mem_cons_of_mem _ he)
    · exact hInv.visDom
    · exact hInv.visSound
    · exact hInv.visBound
    · exact hInv.seedsVis
    · intro k v h hP
      rcases hInv.stab k v h trivial with ⟨e, he, he1, he2⟩ | hrel
      · rcases List.mem_cons.1 he with rfl | he
        · exact absurd he1.symm hP
        · exact Or.inl ⟨e, he, he1, he2⟩
      · exact Or.inr hrel
    · exact hInv.bestSound
  have hts_sound : ∀ p ∈ transitionsOf G s l c, CostReachT G source target p.1 p.2 := by
    intro p hp
    rcases mem_transitionsOf.1 hp with ⟨t, ht, l2, hl2, rfl⟩
    exact CostReachT.step s l c t l2 hheadSound hne ht hl2
  have hts_dom : ∀ p ∈ transitionsOf G s l c, p.1 ∈ stateUniverse G source := by
    intro p hp
    rcases mem_transitionsOf.1 hp with ⟨t, ht, l2, hl2, rfl⟩
    rcases mem_nbrFinset.1 ht with ⟨htn, hedge⟩
    unfold stateUniverse
    apply Finset.mem_product.2
    refine ⟨htn, ?_⟩
    unfold lineUniverse
    exact Finset.mem_union_right _ (Finset.mem_biUnion.2 ⟨ekey s t, hedge, hl2⟩)
  have hts_bound : ∀ p ∈ transitionsOf G s l c,
      p.2 ≤ (visDomain G source vis).card + 1 := by
    intro p hp
    rcases mem_transitionsOf.1 hp with ⟨t, ht, l2, hl2, rfl⟩
    by_cases hll : l2 = l
    · rw [if_pos hll]
      omega
    · rw [if_neg hll]
      omega
  obtain ⟨ih1, ih2, ih3, ih4, ih5, ih6, ih7⟩ :=
    relaxAll_inv G source target (s, l) best (transitionsOf G s l c) vis q
      hInvP hts_sound hts_dom hts_bound
  refine ⟨?_, ih7⟩
  constructor
  · exact ih1.qSound
  · exact ih1.qDom
  · exact ih1.qBound
  · exact ih1.visDom
  · exact ih1.visSound
  · exact ih1.visBound
  · exact ih1.seedsVis
  · intro k v h _
    by_cases hk : k = (s, l)
    · subst hk
      rcases ih5 _ _ h with hold | ⟨e, he, he1, he2⟩
      · rcases hInv.stab _ v hold trivial with ⟨e, he, he1, he2⟩ | hrel
        · rcases List.mem_cons.1 he with rfl | he
          · right
            unfold relaxedAt
            rw [if_neg hne]
            intro t ht l2 hl2
            have hmem : ((t, l2), c + if l2 = l then 0 else 1)
                ∈ transitionsOf G s l c :=
              mem_transitionsOf.2 ⟨t, ht, l2, hl2, rfl⟩
            rcases ih2 _ hmem with ⟨v2, hv2, hle⟩
            have hcv : c = v := he2
            exact ⟨v2, hv2, by rw [← hcv]; exact hle⟩
          · exact Or.inl ⟨e, ih4 e he, he1, he2⟩
        · exact Or.inr (relaxedAt_mono ih3 (fun b hb => ⟨b, hb, le_refl b⟩) hrel)
      · exact Or.inl ⟨e, he, he1, he2⟩
    · exact ih1.stab k v h hk
  · exact ih1.bestSound

/-- With sufficient fuel the BFS loop drains its queue, ending in a stable
invariant state whose best value it returns. -/
theorem bfsLoop_stable (G : Graph) (source target : ℕ) :
    ∀ (fuel : ℕ) (q : List ((ℕ × ℕ) × ℕ)) (vis : ℕ × ℕ → Option ℕ) (best : Option ℕ),
      BfsInv G source target q vis best →
      bfsMeasure G source vis q < fuel →
      ∃ vis2 best2, BfsInv G source target [] vis2 best2 ∧
        bfsLoop G target fuel q vis best = best2 := by
  intro fuel
  induction fuel with
  | zero => intro q vis best _ habs; omega
  | succ f ihf =>
    intro q vis best hInv hm
    cases q with
    | nil => exact ⟨vis, best, hInv, rfl⟩
    | cons e q =>
      obtain ⟨⟨s, l⟩, c⟩ := e
      rw [bfsLoop_cons_eq]
      have hmq : bfsMeasure G source vis (((s, l), c) :: q)
          = bfsMeasure G source vis q + 1 := by
        unfold bfsMeasure
        rw [List.length_cons]
        omega
      by_cases hst : s = target
      · subst hst
        rw [if_pos rfl]
        exact ihf q vis (minOpt best c)
          (step_target_inv G source s l c q vis best hInv) (by omega)
      · rw [if_neg hst]
        obtain ⟨hInv2, hm2⟩ :=
          step_expand_inv G source target s l c q vis best hst hInv
        apply ihf _ _ _ hInv2
        have : bfsMeasure G source (relaxAll (transitionsOf G s l c) vis q).1
            (relaxAll (transitionsOf G s l c) vis q).2
            ≤ ((stateUniverse G source).card + 2) * visMeasure G source vis
              + q.length := hm2
        unfold bfsMeasure at hm ⊢
        rw [List.length_cons] at hm
        omega

theorem seedVis_char (source : ℕ) (ls : List ℕ) (k : ℕ × ℕ) (v : ℕ)
    (h : (ls.foldl (fun v2 l => updVis v2 (source, l) 0) (fun _ => none)) k = some v) :
    (∃ l ∈ ls, k = (source, l)) ∧ v = 0 := by
  by_cases hex : ∃ l ∈ ls, k = (source, l)
  · rcases hex with ⟨l, hl, rfl⟩
    rw [seedFold_mem source ls _ l hl] at h
    injection h with h
    exact ⟨⟨l, hl, rfl⟩, h.symm⟩
  · push_neg at hex
    rw [seedFold_other source ls _ k hex] at h
    exact absurd h (by simp)

/-- The initial BFS configuration satisfies the loop invariant. -/
theorem bfs_init_inv (G : Graph) (source target : ℕ) (hs : source ∈ G.nodes) :
    BfsInv G source target
      (((G.nodeLines source).sort (· ≤ ·)).map (fun l => ((source, l), 0)))
      (((G.nodeLines source).sort (· ≤ ·)).foldl
        (fun v l => updVis v (source, l) 0) (fun _ => none))
      none := by
  have hkey : ∀ l, l ∈ (G.nodeLines source).sort (· ≤ ·) → l ∈ G.nodeLines source :=
    fun l hl => (Finset.mem_sort _).1 hl
  have hkeyU : ∀ l, l ∈ G.nodeLines source → (source, l) ∈ stateUniverse G source := by
    intro l hl
    unfold stateUniverse
    apply Finset.mem_product.2
    exact ⟨hs, Finset.mem_union_left _ hl⟩
  constructor
  · intro e he
    rcases List.mem_map.1 he with ⟨l, hl, rfl⟩
    exact CostReachT.seed l (hkey l hl)
  · intro e he
    rcases List.mem_map.1 he with ⟨l, hl, rfl⟩
    exact hkeyU l (hkey l hl)
  · intro e he
    rcases List.mem_map.1 he with ⟨l, _, rfl⟩
    exact Nat.zero_le _
  · intro k hk
    rcases Option.isSome_iff_exists.1 hk with ⟨v, hv⟩
    rcases seedVis_char source _ k v hv with ⟨⟨l, hl, rfl⟩, _⟩
    exact hkeyU l (hkey l hl)
  · intro k v hv
    rcases seedVis_char source _ k v hv with ⟨⟨l, hl, rfl⟩, rfl⟩
    exact CostReachT.seed l (hkey l hl)
  · intro k v hv
    rcases seedVis_char source _ k v hv with ⟨_, rfl⟩
    exact Nat.zero_le _
  · intro l hl
    exact seedFold_mem source _ _ l ((Finset.mem_sort _).2 hl)
  · intro k v hv _
    rcases seedVis_char source _ k v hv with ⟨⟨l, hl, rfl⟩, rfl⟩
    exact Or.inl ⟨((source, l), 0), List.mem_map.2 ⟨l, hl, rfl⟩, rfl, rfl⟩
  · intro b hb
    exact absurd hb (by simp)

/-- The fuel budget strictly dominates the initial measure. -/
theorem bfs_init_measure (G : Graph) (source : ℕ) (hs : source ∈ G.nodes) :
    bfsMeasure G source
      (((G.nodeLines source).sort (· ≤ ·)).foldl
        (fun v l => updVis v (source, l) 0) (fun _ => none))
      (((G.nodeLines source).sort (· ≤ ·)).map (fun l => ((source, l), 0)))
      < bfsFuel G source := by
  have hvm : visMeasure G source
      (((G.nodeLines source).sort (· ≤ ·)).foldl
        (fun v l => updVis v (source, l) 0) (fun _ => none))
      ≤ (stateUniverse G source).card * ((stateUniverse G source).card + 1) := by
    unfold visMeasure
    have hterm : ∀ k ∈ stateUniverse G source,
        visCap (stateUniverse G source).card
          ((((G.nodeLines source).sort (· ≤ ·)).foldl
            (fun v l => updVis v (source, l) 0) (fun _ => none)) k)
          ≤ (stateUniverse G source).card + 1 := by
      intro k _
      cases hv : (((G.nodeLines source).sort (· ≤ ·)).foldl
          (fun v l => updVis v (source, l) 0) (fun _ => none)) k with
      | none => rw [visCap_none]
      | some v =>
        rcases seedVis_char source _ k v hv with ⟨_, rfl⟩
        rw [visCap_some]
        omega
    calc Finset.sum (stateUniverse G source)
          (fun k => visCap (stateUniverse G source).card
            ((((G.nodeLines source).sort (· ≤ ·)).foldl
              (fun v l => updVis v (source, l) 0) (fun _ => none)) k))
        ≤ Finset.sum (stateUniverse G source)
            (fun _ => (stateUniverse G source).card + 1) :=
          Finset.sum_le_sum hterm
      _ = (stateUniverse G source).card * ((stateUniverse G source).card + 1) := by
          rw [Finset.sum_const, smul_eq_mul]
  have hlen : (((G.nodeLines source).sort (· ≤ ·)).map
      (fun l => ((source, l), 0))).length ≤ (stateUniverse G source).card := by
    rw [List.length_map, Finset.length_sort]
    have h1 : G.nodeLines source ⊆ lineUniverse G source :=
      Finset.subset_union_left
    have h2 : (lineUniverse G source).card ≤ (stateUniverse G source).card := by
      unfold stateUniverse
      rw [Finset.card_product]
      have : 1 ≤ G.nodes.card := Finset.card_pos.2 ⟨source, hs⟩
      calc (lineUniverse G source).card = 1 * (lineUniverse G source).card := by omega
        _ ≤ G.nodes.card * (lineUniverse G source).card :=
          Nat.mul_le_mul_right _ this
    exact le_trans (Finset.card_le_card h1) h2
  unfold bfsMeasure
  rw [show bfsFuel G source
      = ((stateUniverse G source).card + 2)
        * ((stateUniverse G source).card * ((stateUniverse G source).card + 1))
        + (stateUniverse G source).card + 1 from rfl]
  have hmul : ((stateUniverse G source).card + 2) * visMeasure G source
      (((G.nodeLines source).sort (· ≤ ·)).foldl
        (fun v l => updVis v (source, l) 0) (fun _ => none))
      ≤ ((stateUniverse G source).card + 2)
        * ((stateUniverse G source).card * ((stateUniverse G source).card + 1)) :=
    Nat.mul_le_mul_left _ hvm
  omega

/-- At a stable (empty-queue) state, every specification-reachable state
has been visited with at most its walk cost. -/
theorem stable_upper (G : Graph) (source target : ℕ) (vis : ℕ × ℕ → Option ℕ)
    (best : Option ℕ) (hInv : BfsInv G source target [] vis best) :
    ∀ k c, CostReachT G source target k c → ∃ v, vis k = some v ∧ v ≤ c := by
  intro k c h
  induction h with
  | seed l hl => exact ⟨0, hInv.seedsVis l hl, Nat.zero_le 0⟩
  | step s l c t l2 hprev hne ht hl2 ih =>
    rcases ih with ⟨v, hv, hvc⟩
    rcases hInv.stab (s, l) v hv trivial with ⟨e, he, _⟩ | hrel
    · exact absurd he (List.not_mem_nil e)
    · unfold relaxedAt at hrel
      rw [if_neg hne] at hrel
      rcases hrel t ht l2 hl2 with ⟨v2, hv2, hle⟩
      refine ⟨v2, hv2, ?_⟩
      by_cases hll : l2 = l
      · simp only [if_pos hll] at hle ⊢
        omega
      · simp only [if_neg hll] at hle ⊢
        omega

/-- At a stable state, the recorded best value is at most every visited
target value. -/
theorem stable_best (G : Graph) (source target : ℕ) (vis : ℕ × ℕ → Option ℕ)
    (best : Option ℕ) (hInv : BfsInv G source target [] vis best) :
    ∀ l v, vis (target, l) = some v → ∃ b, best = some b ∧ b ≤ v := by
  intro l v hv
  rcases hInv.stab (target, l) v hv trivial with ⟨e, he, _⟩ | hrel
  · exact absurd he (List.not_mem_nil e)
  · unfold relaxedAt at hrel
    rw [if_pos rfl] at hrel
    exact hrel

theorem costReachT_to_costReach (G : Graph) (source target : ℕ) :
    ∀ k c, CostReachT G source target k c → CostReach G source k c := by
  intro k c h
  induction h with
  | seed l hl => exact CostReach.seed l hl
  | step s l c t l2 _ _ ht hl2 ih => exact CostReach.step s l c t l2 ih ht hl2

/-- Any cost-annotated walk reaching a state either passes through the
target at no greater cost, or is itself target-avoiding. -/
theorem costReach_prefix (G : Graph) (source target : ℕ) :
    ∀ k c, CostReach G source k c →
      (∃ l2 c2, c2 ≤ c ∧ CostReachT G source target (target, l2) c2) ∨
        CostReachT G source target k c := by
  intro k c h
  induction h with
  | seed l hl => exact Or.inr (CostReachT.seed l hl)
  | step s l c t l2 hprev ht hl2 ih =>
    rcases ih with ⟨l3, c3, hle, hT⟩ | hT
    · exact Or.inl ⟨l3, c3, le_trans hle (Nat.le_add_right _ _), hT⟩
    · by_cases hs : s = target
      · subst hs
        exact Or.inl ⟨l, c, Nat.le_add_right _ _, hT⟩
      · exact Or.inr (CostReachT.step s l c t l2 hT hs ht hl2)

/-- Claim C6: the line-change BFS `count_min_transfers_bfs` returns the
`num_lines` sentinel exactly when no (station, line)-state walk from the
source reaches the target, and for a reachable target it returns the
minimum number of line changes over all state walks seeded with zero
changes on each line available at the source. -/
theorem c6_count_min_transfers_bfs_correct (G : Graph) (num_lines source target : ℕ)
    (hs : source ∈ G.nodes) :
    (ReachCosts G source target = ∅ →
      count_min_transfers_bfs G num_lines source target = num_lines) ∧
    (∀ c ∈ ReachCosts G source target,
      count_min_transfers_bfs G num_lines source target ∈ ReachCosts G source target ∧
      count_min_transfers_bfs G num_lines source target ≤ c) := by
  obtain ⟨vis2, best2, hInv2, hrun⟩ :=
    bfsLoop_stable G source target (bfsFuel G source)
      (((G.nodeLines source).sort (· ≤ ·)).map (fun l => ((source, l), 0)))
      (((G.nodeLines source).sort (· ≤ ·)).foldl
        (fun v l => updVis v (source, l) 0) (fun _ => none))
      none (bfs_init_inv G source target hs) (bfs_init_measure G source hs)
  have hcount : count_min_transfers_bfs G num_lines source target
      = best2.getD num_lines := by
    simp only [count_min_transfers_bfs]
    rw [hrun]
    cases best2 with
    | none => rfl
    | some b => rfl
  constructor
  · intro hempty
    have hbest_none : best2 = none := by
      cases hb : best2 with
      | none => rfl
      | some b =>
        rcases hInv2.bestSound b hb with ⟨l, hT⟩
        have hmem : b ∈ ReachCosts G source target :=
          ⟨l, costReachT_to_costReach G source target _ _ hT⟩
        rw [hempty] at hmem
        exact absurd hmem (Set.not_mem_empty b)
    rw [hcount, hbest_none]
    rfl
  · intro c hc
    rcases hc with ⟨l, hreach⟩
    have hT2 : ∃ l2 c2, c2 ≤ c ∧ CostReachT G source target (target, l2) c2 := by
      rcases costReach_prefix G source target _ _ hreach with ⟨l3, c3, hle, hT⟩ | hT
      · exact ⟨l3, c3, hle, hT⟩
      · exact ⟨l, c, le_refl c, hT⟩
    rcases hT2 with ⟨l2, c2, hc2le, hT2⟩
    rcases stable_upper G source target vis2 best2 hInv2 (target, l2) c2 hT2
      with ⟨v, hv, hvc⟩
    rcases stable_best G source target vis2 best2 hInv2 l2 v hv with ⟨b, hb, hbv⟩
    have hres : count_min_transfers_bfs G num_lines source target = b := by
      rw [hcount, hb]
      rfl
    rcases hInv2.bestSound b hb with ⟨lb, hTb⟩
    constructor
    · rw [hres]
      exact ⟨lb, costReachT_to_costReach G source target _ _ hTb⟩
    · rw [hres]
      omega

theorem c6_unreach_station (k : ℕ × ℕ) (c : ℕ) (h : CostReach c6G 0 k c) :
    k.1 = 0 := by
  induction h with
  | seed l _ => rfl
  | step s l c2 t l2 _ ht _ _ =>
    exfalso
    rcases mem_nbrFinset.1 ht with ⟨_, hedge⟩
    exact absurd hedge (Finset.not_mem_empty _)

/-- Witness for C6: on the edgeless two-station graph the target is
unreachable and the BFS returns the sentinel (the line count, here 3). -/
theorem c6_count_min_transfers_bfs_correct_witness :
    (0 : ℕ) ∈ c6G.nodes ∧ ReachCosts c6G 0 1 = ∅ ∧
      count_min_transfers_bfs c6G 3 0 1 = 3 := by
  have hs : (0 : ℕ) ∈ c6G.nodes := by decide
  have hempty : ReachCosts c6G 0 1 = ∅ := by
    rw [Set.eq_empty_iff_forall_not_mem]
    rintro c ⟨l, hreach⟩
    have := c6_unreach_station (1, l) c hreach
    simp at this
  exact ⟨hs, hempty, (c6_count_min_transfers_bfs_correct c6G 3 0 1 hs).1 hempty⟩

end Transit
